import Mathlib

/-!
# Verification of the dirdiff comparison engine

Shallow embedding of `src/main.rs` (the `dirdiff` parallel directory
comparator).  File names are modelled as natural numbers (any linearly
ordered set of names works, since the program only compares them), raw
byte strings (file contents, symlink targets, paths) as `List Nat`, and
relative paths as lists of name components.

The embedding covers:
* `FType` / `file_type_order` — the observed file type and its sort rank;
* `cmpLoop` — the buffered prefix comparison loop of two regular files,
  parametrised by the non-deterministic per-iteration buffer fill sizes;
* `dispatch` — the `Equal` branch of the merge in `DirWorker::process_path`;
* `processPairs` — the high-end peek/pop merge loop of `process_path`,
  operating on two sorted vectors through their last elements;
* `classicalMerge` — a second definition following the specification's
  words (a classical low-end ordered merge of the two sorted listings),
  used to state the refinement claim;
* `FileT.new` / `buildListing` — construction of a directory listing,
  recording whether failures abort by an error return or by a panic;
* `WSState` / `WStep` — a transition system for the work-stealing
  scheduler's idle/steal protocol.

Outputs carry, besides the emitted `Diff` events and the pushed
sub-directory paths, two instrumentation traces (`opens`: names passed to
`File::open`; `paired`: names dispatched as equal-key pairs) that record
side effects of the run without altering it.  On an abort the model
returns only the error, dropping the events emitted before it.
-/

namespace Dirdiff

/-- The file types the program distinguishes (`is_dir` / `is_symlink` /
`is_file` / anything else).  The `other` tag keeps distinct "other"
types (block device, char device, fifo, socket) distinguishable. -/
inductive FType where
  | dir
  | symlink
  | regular
  | other (tag : Nat)
deriving DecidableEq

/-- `FileT::file_type_order` from `src/main.rs`: 0 for a directory, 1 for a
symlink, 2 for a regular file, 3 otherwise. -/
def file_type_order : FType → Nat
  | .dir => 0
  | .symlink => 1
  | .regular => 2
  | .other _ => 3

theorem file_type_order_le_three (ft : FType) : file_type_order ft ≤ 3 := by
  cases ft <;> simp [file_type_order]

/-- The extraction of useful metadata for an iterated file (`struct FileT`),
together with the filesystem's answers to the syscalls the worker may later
perform on it: `target` is what `read_link` returns, `len` and `mtime` come
from `metadata()`, and `content` is the byte sequence the reader yields. -/
structure FileT where
  name : Nat
  ftype : FType
  path : Option (List Nat)
  target : List Nat
  len : Nat
  mtime : Nat
  content : List Nat
deriving DecidableEq

/-- Three-way comparison of naturals, as Rust's `Ord::cmp` on integers. -/
def ncmp (a b : Nat) : Ordering :=
  if a < b then .lt else if b < a then .gt else .eq

/-- `(ord1, e1.filename()).cmp(&(ord2, e2.filename()))`: lexicographic
comparison of the sort keys `(TypeOrder, name)`. -/
def cmpKey (e1 e2 : FileT) : Ordering :=
  match ncmp (file_type_order e1.ftype) (file_type_order e2.ftype) with
  | .eq => ncmp e1.name e2.name
  | o => o

/-- Strict order on sort keys. -/
def keyLt (e1 e2 : FileT) : Prop :=
  file_type_order e1.ftype < file_type_order e2.ftype ∨
    (file_type_order e1.ftype = file_type_order e2.ftype ∧ e1.name < e2.name)

instance : DecidableRel keyLt := fun _ _ => by unfold keyLt; infer_instance

theorem ncmp_eq_iff {a b : Nat} : ncmp a b = .eq ↔ a = b := by
  unfold ncmp; split_ifs <;> simp <;> omega

theorem ncmp_lt_iff {a b : Nat} : ncmp a b = .lt ↔ a < b := by
  unfold ncmp; split_ifs <;> simp <;> omega

theorem ncmp_gt_iff {a b : Nat} : ncmp a b = .gt ↔ b < a := by
  unfold ncmp; split_ifs <;> simp <;> omega

theorem cmpKey_eq_iff {e1 e2 : FileT} :
    cmpKey e1 e2 = .eq ↔
      (file_type_order e1.ftype = file_type_order e2.ftype ∧ e1.name = e2.name) := by
  unfold cmpKey
  rcases h : ncmp (file_type_order e1.ftype) (file_type_order e2.ftype) with _ | _ | _
  · have hlt := ncmp_lt_iff.mp h
    simp only [h]
    constructor
    · intro hc; simp at hc
    · intro hc; omega
  · have heq := ncmp_eq_iff.mp h
    simp only [h, ncmp_eq_iff]
    constructor
    · intro hc; exact ⟨heq, hc⟩
    · intro hc; exact hc.2
  · have hgt := ncmp_gt_iff.mp h
    simp only [h]
    constructor
    · intro hc; simp at hc
    · intro hc; omega

theorem cmpKey_lt_iff {e1 e2 : FileT} : cmpKey e1 e2 = .lt ↔ keyLt e1 e2 := by
  unfold cmpKey keyLt
  rcases h : ncmp (file_type_order e1.ftype) (file_type_order e2.ftype) with _ | _ | _
  · have hlt := ncmp_lt_iff.mp h
    simp only [h]
    constructor
    · intro _; exact Or.inl hlt
    · intro _; trivial
  · have heq := ncmp_eq_iff.mp h
    simp only [h, ncmp_lt_iff]
    constructor
    · intro hc; exact Or.inr ⟨heq, hc⟩
    · intro hc; rcases hc with hc | hc
      · omega
      · exact hc.2
  · have hgt := ncmp_gt_iff.mp h
    simp only [h]
    constructor
    · intro hc; simp at hc
    · intro hc; rcases hc with hc | hc <;> omega

theorem cmpKey_gt_iff {e1 e2 : FileT} : cmpKey e1 e2 = .gt ↔ keyLt e2 e1 := by
  unfold cmpKey keyLt
  rcases h : ncmp (file_type_order e1.ftype) (file_type_order e2.ftype) with _ | _ | _
  · have hlt := ncmp_lt_iff.mp h
    simp only [h]
    constructor
    · intro hc; simp at hc
    · intro hc; rcases hc with hc | hc <;> omega
  · have heq := ncmp_eq_iff.mp h
    simp only [h, ncmp_gt_iff]
    constructor
    · intro hc; exact Or.inr ⟨heq.symm, hc⟩
    · intro hc; rcases hc with hc | hc
      · omega
      · exact hc.2
  · have hgt := ncmp_gt_iff.mp h
    simp only [h]
    constructor
    · intro _; exact Or.inl hgt
    · intro _; trivial

theorem keyLt_irrefl (e : FileT) : ¬ keyLt e e := by
  unfold keyLt; omega

theorem keyLt_trans {a b c : FileT} (h1 : keyLt a b) (h2 : keyLt b c) : keyLt a c := by
  unfold keyLt at *; omega

theorem keyLt_not_eq {a b : FileT} (h : keyLt a b) : cmpKey a b ≠ .eq := by
  intro he
  rcases cmpKey_eq_iff.mp he with ⟨h1, h2⟩
  unfold keyLt at h; omega

theorem keyLt_not_eq' {a b : FileT} (h : keyLt a b) : cmpKey b a ≠ .eq := by
  intro he
  rcases cmpKey_eq_iff.mp he with ⟨h1, h2⟩
  unfold keyLt at h; omega

theorem cmpKey_eq_symm {a b : FileT} (h : cmpKey a b = .eq) : cmpKey b a = .eq := by
  rcases cmpKey_eq_iff.mp h with ⟨h1, h2⟩
  exact cmpKey_eq_iff.mpr ⟨h1.symm, h2.symm⟩

theorem cmpKey_eq_trans_lt {a b c : FileT} (h : cmpKey a b = .eq) (h2 : keyLt b c) :
    keyLt a c := by
  rcases cmpKey_eq_iff.mp h with ⟨he, hn⟩
  unfold keyLt at *; omega

theorem keyLt_trans_eq {a b c : FileT} (h : keyLt a b) (h2 : cmpKey b c = .eq) :
    keyLt a c := by
  rcases cmpKey_eq_iff.mp h2 with ⟨he, hn⟩
  unfold keyLt at *; omega

/-! ## The buffered prefix-comparison loop (lines 335–348 of `src/main.rs`)

`fill_buf` on a `BufReader` returns a non-empty prefix of the unread bytes
whenever any remain, and the empty slice exactly at end of file.  The
per-iteration sizes of those prefixes are non-deterministic (buffer
capacity, short reads, leftovers from a partial `consume`); they are
modelled by two arbitrary schedules `f1 f2 : Nat → Nat` giving the fill
size of each stream at each iteration, so iteration `k` sees
`s1 = c1.take (f1 k)` and `s2 = c2.take (f2 k)` of the unread suffixes.
The Rust loop is `loop { .. }`; the model carries fuel and returns `none`
if the fuel runs out, so termination is the statement that enough fuel
always yields `some`. -/
def cmpLoop (f1 f2 : Nat → Nat) : Nat → Nat → List Nat → List Nat → Option Bool
  | 0, _, _, _ => none
  | fuel + 1, k, c1, c2 =>
    let s1 := c1.take (f1 k)
    let s2 := c2.take (f2 k)
    if s1.isEmpty then some s2.isEmpty
    else
      let common := min s1.length s2.length
      if s1.take common ≠ s2.take common then some false
      else cmpLoop f1 f2 fuel (k + 1) (c1.drop common) (c2.drop common)

theorem cmpLoop_correct (f1 f2 : Nat → Nat)
    (hf1 : ∀ j, 1 ≤ f1 j) (hf2 : ∀ j, 1 ≤ f2 j) :
    ∀ fuel k c1 c2, c1.length = c2.length → c1.length < fuel →
      cmpLoop f1 f2 fuel k c1 c2 = some (c1 == c2) := by
  intro fuel
  induction fuel with
  | zero => intro k c1 c2 _ h; omega
  | succ n ih =>
    intro k c1 c2 hlen hfuel
    match c1, c2 with
    | [], c2 =>
      have hc2 : c2 = [] := List.length_eq_zero.mp hlen.symm
      subst hc2
      simp [cmpLoop]
    | a :: as, [] => simp at hlen
    | a :: as, b :: bs =>
      have hT1 : (a :: as).take (f1 k) = a :: as.take (f1 k - 1) := by
        have h1 := hf1 k
        match hfk : f1 k with
        | 0 => omega
        | m + 1 => simp [List.take_succ_cons]
      have hT2 : (b :: bs).take (f2 k) = b :: bs.take (f2 k - 1) := by
        have h2 := hf2 k
        match hfk : f2 k with
        | 0 => omega
        | m + 1 => simp [List.take_succ_cons]
      rw [cmpLoop]
      simp only [hT1, hT2, List.isEmpty_cons, Bool.false_eq_true, if_false]
      set C := min (a :: as.take (f1 k - 1)).length (b :: bs.take (f2 k - 1)).length
        with hC
      have hCf1 : C ≤ f1 k := by
        have : (a :: as.take (f1 k - 1)).length ≤ f1 k := by
          have h1 := hf1 k
          simp [List.length_take]
          omega
        have := Nat.min_le_left (a :: as.take (f1 k - 1)).length
          (b :: bs.take (f2 k - 1)).length
        omega
      have hCf2 : C ≤ f2 k := by
        have : (b :: bs.take (f2 k - 1)).length ≤ f2 k := by
          have h2 := hf2 k
          simp [List.length_take]
          omega
        have := Nat.min_le_right (a :: as.take (f1 k - 1)).length
          (b :: bs.take (f2 k - 1)).length
        omega
      have hCpos : 1 ≤ C := by
        rw [hC]
        refine Nat.le_min.mpr ⟨?_, ?_⟩ <;> simp
      have htt1 : (a :: as.take (f1 k - 1)).take C = (a :: as).take C := by
        rw [← hT1, List.take_take, Nat.min_eq_left hCf1]
      have htt2 : (b :: bs.take (f2 k - 1)).take C = (b :: bs).take C := by
        rw [← hT2, List.take_take, Nat.min_eq_left hCf2]
      have hClen1 : C ≤ (a :: as).length := by
        have h1 : (a :: as.take (f1 k - 1)).length ≤ (a :: as).length := by
          simp [List.length_take]
        have := Nat.min_le_left (a :: as.take (f1 k - 1)).length
          (b :: bs.take (f2 k - 1)).length
        omega
      rw [htt1, htt2]
      by_cases hpre : (a :: as).take C = (b :: bs).take C
      · rw [if_neg (not_not_intro hpre)]
        have harg1 : ((a :: as).drop C).length = ((b :: bs).drop C).length := by
          simp only [List.length_drop]
          omega
        have harg2 : ((a :: as).drop C).length < n := by
          simp only [List.length_drop, List.length_cons]
          simp only [List.length_cons] at hfuel hClen1
          omega
        rw [ih (k + 1) _ _ harg1 harg2]
        congr 1
        by_cases hd : (a :: as).drop C = (b :: bs).drop C
        · have hall : a :: as = b :: bs := by
            rw [← List.take_append_drop C (a :: as), ← List.take_append_drop C (b :: bs),
              hpre, hd]
          rw [hd, hall]
          simp
        · have hne : a :: as ≠ b :: bs := by
            intro hcontr; apply hd; rw [hcontr]
          rw [beq_eq_false_iff_ne.mpr hne, beq_eq_false_iff_ne.mpr hd]
      · rw [if_pos hpre]
        have hne : a :: as ≠ b :: bs := by
          intro hcontr; apply hpre; rw [hcontr]
        simp [beq_eq_false_iff_ne.mpr hne]

/-! ## Diff events and the merge of `DirWorker::process_path` -/

/-- `enum Diff` from `src/main.rs`; each event carries the relative
directory and the file name, as the Rust constructors do. -/
inductive Diff where
  | InDir1Only (dir : List Nat) (name : Nat)
  | InDir2Only (dir : List Nat) (name : Nat)
  | Different (dir : List Nat) (name : Nat)
  | SameButDifferentMTime (dir : List Nat) (name : Nat)
deriving DecidableEq

/-- How a `process_path` call aborts: the failed `assert_eq!(ft1, ft2)`,
or the `bail!("Unimplemented filetype. File {} has type {:?}", p, ft1)`
whose payload records the path `p = dir/name` and the type order `ft1`. -/
inductive PErr where
  | assertFail
  | unimplemented (path : List Nat) (ford : Nat)
deriving DecidableEq

/-- Output of dispatching one equal-key pair: emitted events, pushed
sub-directory work items, and the names passed to `File::open`. -/
structure Step where
  events : List Diff
  pushes : List (List Nat)
  opens : List Nat
deriving DecidableEq

/-- Accumulated output of one `process_path` call: events in emission
order, pushed work items, opened file names, and the names of the
entries dispatched as equal-key pairs. -/
structure POut where
  events : List Diff
  pushes : List (List Nat)
  opens : List Nat
  paired : List Nat
deriving DecidableEq

/-- The default `BufReader` capacity. -/
def DEFAULT_BUF_SIZE : Nat := 8192

/-- The content comparison as run by the worker: the prefix loop with both
readers filling up to the default buffer capacity each round. -/
def contentEq (c1 c2 : List Nat) : Bool :=
  (cmpLoop (fun _ => DEFAULT_BUF_SIZE) (fun _ => DEFAULT_BUF_SIZE)
    (c1.length + 1) 0 c1 c2).getD false

/-- `let same_content = if e1_meta.len() != e2_meta.len() { false } else
{ .. the reader loop .. }` (lines 330–349). -/
def sameContent (e1 e2 : FileT) : Bool :=
  if e1.len ≠ e2.len then false else contentEq e1.content e2.content

/-- Names passed to `File::open` while computing `same_content`: none when
the length prefilter trips, both files otherwise. -/
def opensOf (e1 e2 : FileT) : List Nat :=
  if e1.len ≠ e2.len then [] else [e1.name, e2.name]

/-- The `Equal` arm of the merge in `process_path` (lines 310–370): the
`assert_eq!` on the two type orders, then the match on `ft1` — directory
push, symlink target comparison, regular-file comparison with the length
prefilter, and the `bail!` for any other type. -/
def dispatch (dir : List Nat) (check_mtime : Bool) (e1 e2 : FileT) : Except PErr Step :=
  if file_type_order e1.ftype ≠ file_type_order e2.ftype then .error .assertFail
  else if file_type_order e1.ftype = 0 then
    .ok ⟨[], [dir ++ [e1.name]], []⟩
  else if file_type_order e1.ftype = 1 then
    if e1.target ≠ e2.target then .ok ⟨[.Different dir e1.name], [], []⟩
    else .ok ⟨[], [], []⟩
  else if file_type_order e1.ftype = 2 then
    if ¬ sameContent e1 e2 then .ok ⟨[.Different dir e1.name], [], opensOf e1 e2⟩
    else if check_mtime ∧ e1.mtime ≠ e2.mtime then
      .ok ⟨[.SameButDifferentMTime dir e2.name], [], opensOf e1 e2⟩
    else .ok ⟨[], [], opensOf e1 e2⟩
  else .error (.unimplemented (dir ++ [e1.name]) (file_type_order e1.ftype))

/-- The merge loop of `DirWorker::process_path` (lines 282–373): while both
sorted vectors are non-empty, peek their last elements, compare the sort
keys, pop the greater side (emitting `InDir1Only` / `InDir2Only`) or pop
both and dispatch; when one side empties, drain the other front-to-back. -/
def processPairs (dir : List Nat) (check_mtime : Bool) (l1 l2 : List FileT) :
    Except PErr POut :=
  if h1 : l1 = [] then .ok ⟨l2.map (fun e => .InDir2Only dir e.name), [], [], []⟩
  else if h2 : l2 = [] then .ok ⟨l1.map (fun e => .InDir1Only dir e.name), [], [], []⟩
  else
    match cmpKey (l1.getLast h1) (l2.getLast h2) with
    | .lt =>
      match processPairs dir check_mtime l1 l2.dropLast with
      | .error e => .error e
      | .ok out =>
        .ok { out with events := .InDir2Only dir (l2.getLast h2).name :: out.events }
    | .gt =>
      match processPairs dir check_mtime l1.dropLast l2 with
      | .error e => .error e
      | .ok out =>
        .ok { out with events := .InDir1Only dir (l1.getLast h1).name :: out.events }
    | .eq =>
      match dispatch dir check_mtime (l1.getLast h1) (l2.getLast h2) with
      | .error e => .error e
      | .ok st =>
        match processPairs dir check_mtime l1.dropLast l2.dropLast with
        | .error e => .error e
        | .ok out =>
          .ok ⟨st.events ++ out.events, st.pushes ++ out.pushes,
               st.opens ++ out.opens, (l1.getLast h1).name :: out.paired⟩
termination_by l1.length + l2.length
decreasing_by
  all_goals
    simp only [List.length_dropLast]
    have := List.length_pos.mpr h1
    have := List.length_pos.mpr h2
    omega

/-- The same merge viewed from the head: `procRev r1 r2` processes the
reversed listings, so that each step is structural recursion on a cons.
`processPairs_eq_procRev` proves it is `processPairs` exactly. -/
def procRev (dir : List Nat) (check_mtime : Bool) : List FileT → List FileT →
    Except PErr POut
  | [], r2 => .ok ⟨r2.reverse.map (fun e => .InDir2Only dir e.name), [], [], []⟩
  | e1 :: t1, [] =>
    .ok ⟨(e1 :: t1).reverse.map (fun e => .InDir1Only dir e.name), [], [], []⟩
  | e1 :: t1, e2 :: t2 =>
    match cmpKey e1 e2 with
    | .lt =>
      match procRev dir check_mtime (e1 :: t1) t2 with
      | .error e => .error e
      | .ok out => .ok { out with events := .InDir2Only dir e2.name :: out.events }
    | .gt =>
      match procRev dir check_mtime t1 (e2 :: t2) with
      | .error e => .error e
      | .ok out => .ok { out with events := .InDir1Only dir e1.name :: out.events }
    | .eq =>
      match dispatch dir check_mtime e1 e2 with
      | .error e => .error e
      | .ok st =>
        match procRev dir check_mtime t1 t2 with
        | .error e => .error e
        | .ok out =>
          .ok ⟨st.events ++ out.events, st.pushes ++ out.pushes,
               st.opens ++ out.opens, e1.name :: out.paired⟩
termination_by r1 r2 => r1.length + r2.length
decreasing_by all_goals simp <;> omega

theorem processPairs_eq_procRev (dir : List Nat) (c : Bool) :
    ∀ n l1 l2, l1.length + l2.length ≤ n →
      processPairs dir c l1 l2 = procRev dir c l1.reverse l2.reverse := by
  intro n
  induction n with
  | zero =>
    intro l1 l2 hn
    have h1 : l1 = [] := List.length_eq_zero.mp (by omega)
    have h2 : l2 = [] := List.length_eq_zero.mp (by omega)
    subst h1; subst h2
    simp [processPairs, procRev]
  | succ m ih =>
    intro l1 l2 hn
    by_cases h1 : l1 = []
    · subst h1
      simp [processPairs, procRev]
    · by_cases h2 : l2 = []
      · subst h2
        rw [processPairs, dif_neg h1, dif_pos rfl]
        obtain ⟨a, t, ha⟩ : ∃ a t, l1.reverse = a :: t := by
          rcases hr : l1.reverse with _ | ⟨a, t⟩
          · exact absurd (by simpa using congrArg List.reverse hr) h1
          · exact ⟨a, t, rfl⟩
        rw [List.reverse_nil, ha, procRev, ← ha]
        simp
      · have hsplit1 : l1.reverse = l1.getLast h1 :: l1.dropLast.reverse := by
          conv_lhs => rw [← List.dropLast_append_getLast h1]
          simp
        have hsplit2 : l2.reverse = l2.getLast h2 :: l2.dropLast.reverse := by
          conv_lhs => rw [← List.dropLast_append_getLast h2]
          simp
        have hlen1 : l1.dropLast.length = l1.length - 1 := List.length_dropLast l1
        have hlen2 : l2.dropLast.length = l2.length - 1 := List.length_dropLast l2
        have hpos1 := List.length_pos.mpr h1
        have hpos2 := List.length_pos.mpr h2
        rw [processPairs]
        rw [dif_neg h1, dif_neg h2]
        rw [hsplit1, hsplit2, procRev]
        rcases hk : cmpKey (l1.getLast h1) (l2.getLast h2) with _ | _ | _ <;>
          simp only [hk]
        · rw [ih l1 l2.dropLast (by omega), hsplit1]
        · rw [ih l1.dropLast l2.dropLast (by omega)]
        · rw [ih l1.dropLast l2 (by omega), hsplit2]


/-! ## Canonical (order-free) characterization of one merge pass -/

/-- Listing sorted ascending by the sort key, strictly (distinct keys). -/
def SortedAsc (l : List FileT) : Prop := l.Pairwise keyLt

/-- Listing sorted descending by the sort key, strictly. -/
def SortedDesc (l : List FileT) : Prop := l.Pairwise (fun a b => keyLt b a)

/-- All entry names in the listing are distinct (true of any directory). -/
def NamesNodup (l : List FileT) : Prop := (l.map (fun e => e.name)).Nodup

instance (l : List FileT) : Decidable (SortedAsc l) := by
  unfold SortedAsc; infer_instance

instance (l : List FileT) : Decidable (SortedDesc l) := by
  unfold SortedDesc; infer_instance

instance (l : List FileT) : Decidable (NamesNodup l) := by
  unfold NamesNodup; infer_instance

/-- Whether some entry of `l` has the same sort key as `e`. -/
def matchedIn (e : FileT) (l : List FileT) : Bool :=
  l.any (fun x => decide (cmpKey e x = .eq))

/-- All equal-key pairs between the two listings. -/
def canonPairs (l1 l2 : List FileT) : List (FileT × FileT) :=
  l1.flatMap (fun a =>
    (l2.filter (fun b => decide (cmpKey a b = .eq))).map (fun b => (a, b)))

/-- The dispatch of one pair, with aborts mapped to an empty step. -/
def pairStep (dir : List Nat) (c : Bool) (p : FileT × FileT) : Step :=
  match dispatch dir c p.1 p.2 with
  | .ok st => st
  | .error _ => ⟨[], [], []⟩

/-- The multiset of events a merge of the two listings must emit, written
order-free: unmatched entries of each side, plus the pair dispatch events. -/
def canonEvents (dir : List Nat) (c : Bool) (l1 l2 : List FileT) : List Diff :=
  (l1.filter (fun e => !matchedIn e l2)).map (fun e => .InDir1Only dir e.name)
    ++ (l2.filter (fun e => !matchedIn e l1)).map (fun e => .InDir2Only dir e.name)
    ++ (canonPairs l1 l2).flatMap (fun p => (pairStep dir c p).events)

def canonPushes (dir : List Nat) (c : Bool) (l1 l2 : List FileT) : List (List Nat) :=
  (canonPairs l1 l2).flatMap (fun p => (pairStep dir c p).pushes)

def canonOpens (dir : List Nat) (c : Bool) (l1 l2 : List FileT) : List Nat :=
  (canonPairs l1 l2).flatMap (fun p => (pairStep dir c p).opens)

def canonPaired (l1 l2 : List FileT) : List Nat :=
  (canonPairs l1 l2).map (fun p => p.1.name)

/-- No pair of the two listings has the unimplemented type order 3. -/
def canonOk (l1 l2 : List FileT) : Prop :=
  ∀ p ∈ canonPairs l1 l2, file_type_order p.1.ftype ≠ 3

/-- Shape of any abort of the merge: an `unimplemented` error naming the
relative path `dir/name` of some equal-key pair of type order 3. -/
def errShape (dir : List Nat) (e : PErr) (l1 l2 : List FileT) : Prop :=
  ∃ f1 f2, f1 ∈ l1 ∧ f2 ∈ l2 ∧ cmpKey f1 f2 = .eq ∧
    file_type_order f1.ftype = 3 ∧ file_type_order f2.ftype = 3 ∧
    e = .unimplemented (dir ++ [f1.name]) 3

/-- The four permutation facts relating a merge output to the canon. -/
def outPerm (o : POut) (dir : List Nat) (c : Bool) (l1 l2 : List FileT) : Prop :=
  o.events.Perm (canonEvents dir c l1 l2) ∧
    o.pushes.Perm (canonPushes dir c l1 l2) ∧
    o.opens.Perm (canonOpens dir c l1 l2) ∧
    o.paired.Perm (canonPaired l1 l2)

theorem mem_canonPairs {p : FileT × FileT} {l1 l2 : List FileT} :
    p ∈ canonPairs l1 l2 ↔ p.1 ∈ l1 ∧ p.2 ∈ l2 ∧ cmpKey p.1 p.2 = .eq := by
  rcases p with ⟨a, b⟩
  simp only [canonPairs, List.mem_flatMap, List.mem_map, List.mem_filter,
    decide_eq_true_eq]
  constructor
  · rintro ⟨x, hx, b', ⟨hb', hkey⟩, heq⟩
    have h1 : x = a := by cases heq; rfl
    have h2 : b' = b := by cases heq; rfl
    subst h1; subst h2
    exact ⟨hx, hb', hkey⟩
  · rintro ⟨ha, hb, hkey⟩
    exact ⟨a, ha, b, ⟨hb, hkey⟩, rfl⟩

theorem matchedIn_nil (e : FileT) : matchedIn e [] = false := rfl

theorem matchedIn_cons {e b : FileT} {l : List FileT} :
    matchedIn e (b :: l) = (decide (cmpKey e b = .eq) || matchedIn e l) := by
  simp [matchedIn]

theorem matchedIn_cons_of_ne {e b : FileT} {l : List FileT} (h : cmpKey e b ≠ .eq) :
    matchedIn e (b :: l) = matchedIn e l := by
  simp [matchedIn_cons, decide_eq_false h]

theorem matchedIn_eq_false {e : FileT} {l : List FileT} :
    matchedIn e l = false ↔ ∀ x ∈ l, cmpKey e x ≠ .eq := by
  simp [matchedIn]

theorem matchedIn_eq_true {e : FileT} {l : List FileT} :
    matchedIn e l = true ↔ ∃ x ∈ l, cmpKey e x = .eq := by
  simp [matchedIn]

theorem canonPairs_cons_left (a : FileT) (l1 l2 : List FileT) :
    canonPairs (a :: l1) l2 =
      (l2.filter (fun b => decide (cmpKey a b = .eq))).map (fun b => (a, b))
        ++ canonPairs l1 l2 := by
  simp [canonPairs]

theorem canonPairs_nil_right (l1 : List FileT) : canonPairs l1 [] = [] := by
  induction l1 with
  | nil => rfl
  | cons a t ih => rw [canonPairs_cons_left, ih]; simp

theorem canonPairs_drop_right {l1 : List FileT} {b : FileT} {t2 : List FileT}
    (h : ∀ a ∈ l1, cmpKey a b ≠ .eq) :
    canonPairs l1 (b :: t2) = canonPairs l1 t2 := by
  induction l1 with
  | nil => rfl
  | cons a t ih =>
    rw [canonPairs_cons_left, canonPairs_cons_left,
      List.filter_cons_of_neg (by simpa using h a (List.mem_cons_self a t)),
      ih (fun x hx => h x (List.mem_cons_of_mem a hx))]

/-- Every successful dispatch has events `[]`, `[Different]` or `[mtime]`. -/
theorem dispatch_events_shape {dir : List Nat} {c : Bool} {a b : FileT} {st : Step}
    (h : dispatch dir c a b = .ok st) :
    st.events = [] ∨ st.events = [.Different dir a.name] ∨
      st.events = [.SameButDifferentMTime dir b.name] := by
  unfold dispatch at h
  split_ifs at h <;> cases h <;> simp

theorem dispatch_pushes_shape {dir : List Nat} {c : Bool} {a b : FileT} {st : Step}
    (h : dispatch dir c a b = .ok st) :
    st.pushes = [] ∨ st.pushes = [dir ++ [a.name]] := by
  unfold dispatch at h
  split_ifs at h <;> cases h <;> simp

theorem dispatch_opens_shape {dir : List Nat} {c : Bool} {a b : FileT} {st : Step}
    (h : dispatch dir c a b = .ok st) :
    st.opens = [] ∨ st.opens = opensOf a b := by
  unfold dispatch at h
  split_ifs at h <;> cases h <;> simp

theorem dispatch_error_shape {dir : List Nat} {c : Bool} {a b : FileT} {e : PErr}
    (hk : cmpKey a b = .eq) (h : dispatch dir c a b = .error e) :
    file_type_order a.ftype = 3 ∧ file_type_order b.ftype = 3 ∧
      e = .unimplemented (dir ++ [a.name]) 3 := by
  rcases cmpKey_eq_iff.mp hk with ⟨hford, _⟩
  have h3 := file_type_order_le_three a.ftype
  unfold dispatch at h
  rw [if_neg (not_not_intro hford)] at h
  split_ifs at h with h0 h1 h2 <;> try (cases h)
  refine ⟨by omega, by omega, ?_⟩
  have hval : file_type_order a.ftype = 3 := by omega
  rw [hval]

theorem dispatch_ok_ford {dir : List Nat} {c : Bool} {a b : FileT} {st : Step}
    (h : dispatch dir c a b = .ok st) :
    file_type_order a.ftype ≠ 3 := by
  unfold dispatch at h
  split_ifs at h <;> first | (cases h; omega) | (cases h)

theorem dispatch_ok_exists {dir : List Nat} {c : Bool} {a b : FileT}
    (hk : cmpKey a b = .eq) (hf : file_type_order a.ftype ≠ 3) :
    ∃ st, dispatch dir c a b = .ok st := by
  rcases cmpKey_eq_iff.mp hk with ⟨hford, _⟩
  have h3 := file_type_order_le_three a.ftype
  unfold dispatch
  rw [if_neg (not_not_intro hford)]
  split_ifs <;> first | exact ⟨_, rfl⟩ | omega

theorem pairStep_of_ok {dir : List Nat} {c : Bool} {a b : FileT} {st : Step}
    (h : dispatch dir c a b = .ok st) : pairStep dir c (a, b) = st := by
  simp [pairStep, h]

theorem pairStep_events_shape {dir : List Nat} {c : Bool} (p : FileT × FileT) :
    ∀ d ∈ (pairStep dir c p).events,
      d = .Different dir p.1.name ∨ d = .SameButDifferentMTime dir p.2.name := by
  rcases p with ⟨a, b⟩
  intro d hd
  rcases hds : dispatch dir c a b with e | st
  · simp [pairStep, hds] at hd
  · rw [pairStep_of_ok hds] at hd
    rcases dispatch_events_shape hds with h | h | h <;> rw [h] at hd <;> simp at hd <;>
      simp [hd]


/-! ## Step lemmas for the canon under a strictly sorted head -/

theorem sortedDesc_cons {e : FileT} {t : List FileT} (h : SortedDesc (e :: t)) :
    (∀ x ∈ t, keyLt x e) ∧ SortedDesc t := by
  unfold SortedDesc at *
  rw [List.pairwise_cons] at h
  exact h

theorem sortedAsc_cons {e : FileT} {t : List FileT} (h : SortedAsc (e :: t)) :
    (∀ x ∈ t, keyLt e x) ∧ SortedAsc t := by
  unfold SortedAsc at *
  rw [List.pairwise_cons] at h
  exact h

theorem perm_cons_front {α : Type} (x : α) {A B C D : List α}
    (h : D.Perm (A ++ B ++ C)) : (x :: D).Perm ((x :: A) ++ B ++ C) := by
  simpa using h.cons x

theorem perm_cons_mid {α : Type} (x : α) {A B C D : List α}
    (h : D.Perm (A ++ B ++ C)) : (x :: D).Perm (A ++ (x :: B) ++ C) := by
  refine (h.cons x).trans ?_
  simp only [List.append_assoc, List.cons_append]
  exact List.perm_middle.symm

theorem perm_front_mid {α : Type} (X : List α) {A B C D : List α}
    (h : D.Perm (A ++ B ++ C)) : (X ++ D).Perm (A ++ B ++ (X ++ C)) := by
  refine (h.append_left X).trans ?_
  have e1 : X ++ (A ++ B ++ C) = (X ++ (A ++ B)) ++ C := by
    simp [List.append_assoc]
  have e2 : A ++ B ++ (X ++ C) = ((A ++ B) ++ X) ++ C := by
    simp [List.append_assoc]
  rw [e1, e2]
  exact List.perm_append_comm.append_right C

theorem canonPairs_step_lt {e2 : FileT} {l1 t2 : List FileT}
    (hmax : ∀ x ∈ l1, keyLt x e2) :
    canonPairs l1 (e2 :: t2) = canonPairs l1 t2 :=
  canonPairs_drop_right (fun a ha => keyLt_not_eq (hmax a ha))

theorem canonPairs_step_gt {e1 : FileT} {t1 l2 : List FileT}
    (hmax : ∀ y ∈ l2, keyLt y e1) :
    canonPairs (e1 :: t1) l2 = canonPairs t1 l2 := by
  rw [canonPairs_cons_left,
    List.filter_eq_nil_iff.mpr
      (fun b hb => by simp only [decide_eq_true_eq]; exact keyLt_not_eq' (hmax b hb))]
  simp

theorem canonPairs_step_eq {e1 e2 : FileT} {t1 t2 : List FileT}
    (hk : cmpKey e1 e2 = .eq) (hd1 : ∀ x ∈ t1, keyLt x e1)
    (hd2 : ∀ y ∈ t2, keyLt y e2) :
    canonPairs (e1 :: t1) (e2 :: t2) = (e1, e2) :: canonPairs t1 t2 := by
  have f1 : ∀ x ∈ t1, cmpKey x e2 ≠ .eq :=
    fun x hx => keyLt_not_eq (keyLt_trans_eq (hd1 x hx) hk)
  have f2 : ∀ y ∈ t2, cmpKey e1 y ≠ .eq :=
    fun y hy => keyLt_not_eq' (keyLt_trans_eq (hd2 y hy) (cmpKey_eq_symm hk))
  rw [canonPairs_cons_left, List.filter_cons_of_pos (by simp [hk]),
    List.filter_eq_nil_iff.mpr
      (fun b hb => by simp only [decide_eq_true_eq]; exact f2 b hb),
    canonPairs_drop_right f1]
  simp

theorem canonEvents_step_lt (dir : List Nat) (c : Bool) {e2 : FileT}
    {l1 t2 : List FileT} (hmax : ∀ x ∈ l1, keyLt x e2) :
    canonEvents dir c l1 (e2 :: t2) =
      (l1.filter (fun e => !matchedIn e t2)).map (fun e => Diff.InDir1Only dir e.name)
        ++ (Diff.InDir2Only dir e2.name ::
            (t2.filter (fun e => !matchedIn e l1)).map
              (fun e => Diff.InDir2Only dir e.name))
        ++ (canonPairs l1 t2).flatMap (fun p => (pairStep dir c p).events) := by
  have hA : l1.filter (fun e => !matchedIn e (e2 :: t2)) =
      l1.filter (fun e => !matchedIn e t2) :=
    List.filter_congr
      (fun x hx => by rw [matchedIn_cons_of_ne (keyLt_not_eq (hmax x hx))])
  have hB : (e2 :: t2).filter (fun e => !matchedIn e l1) =
      e2 :: t2.filter (fun e => !matchedIn e l1) := by
    rw [List.filter_cons_of_pos]
    simp only [Bool.not_eq_true']
    exact matchedIn_eq_false.mpr (fun x hx => keyLt_not_eq' (hmax x hx))
  unfold canonEvents
  rw [canonPairs_step_lt hmax, hA, hB, List.map_cons]

theorem canonEvents_step_gt (dir : List Nat) (c : Bool) {e1 : FileT}
    {t1 l2 : List FileT} (hmax : ∀ y ∈ l2, keyLt y e1) :
    canonEvents dir c (e1 :: t1) l2 =
      (Diff.InDir1Only dir e1.name ::
          (t1.filter (fun e => !matchedIn e l2)).map
            (fun e => Diff.InDir1Only dir e.name))
        ++ (l2.filter (fun e => !matchedIn e t1)).map
            (fun e => Diff.InDir2Only dir e.name)
        ++ (canonPairs t1 l2).flatMap (fun p => (pairStep dir c p).events) := by
  have hA : (e1 :: t1).filter (fun e => !matchedIn e l2) =
      e1 :: t1.filter (fun e => !matchedIn e l2) := by
    rw [List.filter_cons_of_pos]
    simp only [Bool.not_eq_true']
    exact matchedIn_eq_false.mpr (fun y hy => keyLt_not_eq' (hmax y hy))
  have hB : l2.filter (fun e => !matchedIn e (e1 :: t1)) =
      l2.filter (fun e => !matchedIn e t1) :=
    List.filter_congr
      (fun y hy => by rw [matchedIn_cons_of_ne (keyLt_not_eq (hmax y hy))])
  unfold canonEvents
  rw [canonPairs_step_gt hmax, hA, hB, List.map_cons]

theorem canonEvents_step_eq (dir : List Nat) (c : Bool) {e1 e2 : FileT}
    {t1 t2 : List FileT} (hk : cmpKey e1 e2 = .eq)
    (hd1 : ∀ x ∈ t1, keyLt x e1) (hd2 : ∀ y ∈ t2, keyLt y e2) :
    canonEvents dir c (e1 :: t1) (e2 :: t2) =
      (t1.filter (fun e => !matchedIn e t2)).map (fun e => Diff.InDir1Only dir e.name)
        ++ (t2.filter (fun e => !matchedIn e t1)).map
            (fun e => Diff.InDir2Only dir e.name)
        ++ ((pairStep dir c (e1, e2)).events
            ++ (canonPairs t1 t2).flatMap (fun p => (pairStep dir c p).events)) := by
  have f1 : ∀ x ∈ t1, cmpKey x e2 ≠ .eq :=
    fun x hx => keyLt_not_eq (keyLt_trans_eq (hd1 x hx) hk)
  have g1 : ∀ y ∈ t2, cmpKey y e1 ≠ .eq :=
    fun y hy => keyLt_not_eq (keyLt_trans_eq (hd2 y hy) (cmpKey_eq_symm hk))
  have hA : (e1 :: t1).filter (fun e => !matchedIn e (e2 :: t2)) =
      t1.filter (fun e => !matchedIn e t2) := by
    rw [List.filter_cons_of_neg (by simp [matchedIn_cons, hk])]
    exact List.filter_congr
      (fun x hx => by rw [matchedIn_cons_of_ne (f1 x hx)])
  have hB : (e2 :: t2).filter (fun e => !matchedIn e (e1 :: t1)) =
      t2.filter (fun e => !matchedIn e t1) := by
    rw [List.filter_cons_of_neg (by simp [matchedIn_cons, cmpKey_eq_symm hk])]
    exact List.filter_congr
      (fun y hy => by rw [matchedIn_cons_of_ne (g1 y hy)])
  unfold canonEvents
  rw [canonPairs_step_eq hk hd1 hd2, List.flatMap_cons, hA, hB]

/-! ## The merge computes exactly the canon (descending inputs) -/

theorem procRev_canon_nil_left (dir : List Nat) (c : Bool) (r2 : List FileT) :
    (∀ out, procRev dir c [] r2 = .ok out →
      outPerm out dir c [] r2 ∧ canonOk [] r2) ∧
    (∀ e, procRev dir c [] r2 = .error e → errShape dir e [] r2) ∧
    (canonOk [] r2 → ∃ out, procRev dir c [] r2 = .ok out) := by
  have hres : procRev dir c [] r2 =
      .ok ⟨r2.reverse.map (fun e => .InDir2Only dir e.name), [], [], []⟩ := by
    rw [procRev]
  have hpairs : canonPairs [] r2 = [] := rfl
  refine ⟨?_, ?_, ?_⟩
  · intro out h
    rw [hres] at h
    cases h
    have hcanon : canonEvents dir c [] r2 =
        r2.map (fun e => Diff.InDir2Only dir e.name) := by
      unfold canonEvents
      rw [hpairs]
      simp [matchedIn_nil]
    refine ⟨⟨?_, ?_, ?_, ?_⟩, ?_⟩
    · rw [hcanon]
      exact (List.reverse_perm r2).map _
    · exact List.Perm.refl []
    · exact List.Perm.refl []
    · exact List.Perm.refl []
    · intro p hp
      rw [hpairs] at hp
      simp at hp
  · intro e h
    rw [hres] at h
    simp at h
  · intro _
    exact ⟨_, hres⟩

theorem procRev_canon_nil_right (dir : List Nat) (c : Bool) (e1 : FileT)
    (t1 : List FileT) :
    (∀ out, procRev dir c (e1 :: t1) [] = .ok out →
      outPerm out dir c (e1 :: t1) [] ∧ canonOk (e1 :: t1) []) ∧
    (∀ e, procRev dir c (e1 :: t1) [] = .error e → errShape dir e (e1 :: t1) []) ∧
    (canonOk (e1 :: t1) [] → ∃ out, procRev dir c (e1 :: t1) [] = .ok out) := by
  have hres : procRev dir c (e1 :: t1) [] =
      .ok ⟨(e1 :: t1).reverse.map (fun e => .InDir1Only dir e.name), [], [], []⟩ := by
    rw [procRev]
  have hpairs := canonPairs_nil_right (e1 :: t1)
  refine ⟨?_, ?_, ?_⟩
  · intro out h
    rw [hres] at h
    cases h
    have hcanon : canonEvents dir c (e1 :: t1) [] =
        (e1 :: t1).map (fun e => Diff.InDir1Only dir e.name) := by
      unfold canonEvents
      rw [hpairs]
      simp [matchedIn_nil]
    refine ⟨⟨?_, ?_, ?_, ?_⟩, ?_⟩
    · rw [hcanon]
      exact (List.reverse_perm (e1 :: t1)).map _
    · show List.Perm [] (canonPushes dir c (e1 :: t1) [])
      unfold canonPushes
      rw [hpairs]
      exact List.Perm.refl []
    · show List.Perm [] (canonOpens dir c (e1 :: t1) [])
      unfold canonOpens
      rw [hpairs]
      exact List.Perm.refl []
    · show List.Perm [] (canonPaired (e1 :: t1) [])
      unfold canonPaired
      rw [hpairs]
      exact List.Perm.refl []
    · intro p hp
      rw [hpairs] at hp
      simp at hp
  · intro e h
    rw [hres] at h
    simp at h
  · intro _
    exact ⟨_, hres⟩

theorem procRev_canon (dir : List Nat) (c : Bool) :
    ∀ n r1 r2, r1.length + r2.length ≤ n → SortedDesc r1 → SortedDesc r2 →
      (∀ out, procRev dir c r1 r2 = .ok out →
        outPerm out dir c r1 r2 ∧ canonOk r1 r2) ∧
      (∀ e, procRev dir c r1 r2 = .error e → errShape dir e r1 r2) ∧
      (canonOk r1 r2 → ∃ out, procRev dir c r1 r2 = .ok out) := by
  intro n
  induction n with
  | zero =>
    intro r1 r2 hn _ _
    have h1 : r1 = [] := List.length_eq_zero.mp (by omega)
    subst h1
    exact procRev_canon_nil_left dir c r2
  | succ m ih =>
    intro r1 r2 hn hs1 hs2
    match r1, r2 with
    | [], r2 => exact procRev_canon_nil_left dir c r2
    | e1 :: t1, [] => exact procRev_canon_nil_right dir c e1 t1
    | e1 :: t1, e2 :: t2 =>
      obtain ⟨hd1, hs1t⟩ := sortedDesc_cons hs1
      obtain ⟨hd2, hs2t⟩ := sortedDesc_cons hs2
      rcases hk : cmpKey e1 e2 with _ | _ | _
      · -- e2 has the strictly greatest key: pop it, emit InDir2Only
        have hlt : keyLt e1 e2 := cmpKey_lt_iff.mp hk
        have hmax : ∀ x ∈ e1 :: t1, keyLt x e2 := by
          intro x hx
          rcases List.mem_cons.mp hx with h | h
          · exact h ▸ hlt
          · exact keyLt_trans (hd1 x h) hlt
        have ihs := ih (e1 :: t1) t2
          (by simp only [List.length_cons] at hn ⊢; omega) hs1 hs2t
        rcases hrec : procRev dir c (e1 :: t1) t2 with e | out
        · have hres : procRev dir c (e1 :: t1) (e2 :: t2) = .error e := by
            rw [procRev]; simp only [hk, hrec]
          refine ⟨?_, ?_, ?_⟩
          · intro out h; rw [hres] at h; simp at h
          · intro e' h
            rw [hres] at h
            cases h
            obtain ⟨f1, f2, hf1, hf2, hkey, ho1, ho2, he⟩ := ihs.2.1 e hrec
            exact ⟨f1, f2, hf1, List.mem_cons_of_mem e2 hf2, hkey, ho1, ho2, he⟩
          · intro hok
            have hok' : canonOk (e1 :: t1) t2 := by
              unfold canonOk at hok ⊢
              rw [canonPairs_step_lt hmax] at hok
              exact hok
            obtain ⟨out, hout⟩ := ihs.2.2 hok'
            rw [hout] at hrec
            simp at hrec
        · have hres : procRev dir c (e1 :: t1) (e2 :: t2) =
              .ok { out with events := .InDir2Only dir e2.name :: out.events } := by
            rw [procRev]; simp only [hk, hrec]
          obtain ⟨⟨hev, hpu, hop, hpa⟩, hok⟩ := ihs.1 out hrec
          refine ⟨?_, ?_, ?_⟩
          · intro out' h
            rw [hres] at h
            cases h
            refine ⟨⟨?_, ?_, ?_, ?_⟩, ?_⟩
            · rw [canonEvents_step_lt dir c hmax]
              exact perm_cons_mid _ hev
            · show out.pushes.Perm (canonPushes dir c (e1 :: t1) (e2 :: t2))
              unfold canonPushes
              rw [canonPairs_step_lt hmax]
              exact hpu
            · show out.opens.Perm (canonOpens dir c (e1 :: t1) (e2 :: t2))
              unfold canonOpens
              rw [canonPairs_step_lt hmax]
              exact hop
            · show out.paired.Perm (canonPaired (e1 :: t1) (e2 :: t2))
              unfold canonPaired
              rw [canonPairs_step_lt hmax]
              exact hpa
            · unfold canonOk
              rw [canonPairs_step_lt hmax]
              exact hok
          · intro e h; rw [hres] at h; simp at h
          · intro _; exact ⟨_, hres⟩
      · -- equal keys: pop both and dispatch
        have ihs := ih t1 t2
          (by simp only [List.length_cons] at hn ⊢; omega) hs1t hs2t
        rcases hdisp : dispatch dir c e1 e2 with e | st
        · have hres : procRev dir c (e1 :: t1) (e2 :: t2) = .error e := by
            rw [procRev]; simp only [hk, hdisp]
          obtain ⟨hford1, hford2, he⟩ := dispatch_error_shape hk hdisp
          refine ⟨?_, ?_, ?_⟩
          · intro out h; rw [hres] at h; simp at h
          · intro e' h
            rw [hres] at h
            cases h
            exact ⟨e1, e2, List.mem_cons_self e1 t1, List.mem_cons_self e2 t2,
              hk, hford1, hford2, he⟩
          · intro hok
            exfalso
            have hmem : (e1, e2) ∈ canonPairs (e1 :: t1) (e2 :: t2) := by
              rw [canonPairs_step_eq hk hd1 hd2]
              exact List.mem_cons_self _ _
            exact hok (e1, e2) hmem hford1
        · rcases hrec : procRev dir c t1 t2 with e | out
          · have hres : procRev dir c (e1 :: t1) (e2 :: t2) = .error e := by
              rw [procRev]; simp only [hk, hdisp, hrec]
            refine ⟨?_, ?_, ?_⟩
            · intro out h; rw [hres] at h; simp at h
            · intro e' h
              rw [hres] at h
              cases h
              obtain ⟨f1, f2, hf1, hf2, hkey, ho1, ho2, he⟩ := ihs.2.1 e hrec
              exact ⟨f1, f2, List.mem_cons_of_mem e1 hf1,
                List.mem_cons_of_mem e2 hf2, hkey, ho1, ho2, he⟩
            · intro hok
              have hok' : canonOk t1 t2 := by
                intro p hp
                refine hok p ?_
                rw [canonPairs_step_eq hk hd1 hd2]
                exact List.mem_cons_of_mem _ hp
              obtain ⟨out, hout⟩ := ihs.2.2 hok'
              rw [hout] at hrec
              simp at hrec
          · have hres : procRev dir c (e1 :: t1) (e2 :: t2) =
                .ok ⟨st.events ++ out.events, st.pushes ++ out.pushes,
                     st.opens ++ out.opens, e1.name :: out.paired⟩ := by
              rw [procRev]; simp only [hk, hdisp, hrec]
            obtain ⟨⟨hev, hpu, hop, hpa⟩, hok⟩ := ihs.1 out hrec
            have hps := pairStep_of_ok hdisp
            refine ⟨?_, ?_, ?_⟩
            · intro out' h
              rw [hres] at h
              cases h
              refine ⟨⟨?_, ?_, ?_, ?_⟩, ?_⟩
              · rw [canonEvents_step_eq dir c hk hd1 hd2, hps]
                exact perm_front_mid _ hev
              · show (st.pushes ++ out.pushes).Perm
                  (canonPushes dir c (e1 :: t1) (e2 :: t2))
                unfold canonPushes
                rw [canonPairs_step_eq hk hd1 hd2, List.flatMap_cons, hps]
                exact hpu.append_left st.pushes
              · show (st.opens ++ out.opens).Perm
                  (canonOpens dir c (e1 :: t1) (e2 :: t2))
                unfold canonOpens
                rw [canonPairs_step_eq hk hd1 hd2, List.flatMap_cons, hps]
                exact hop.append_left st.opens
              · show (e1.name :: out.paired).Perm (canonPaired (e1 :: t1) (e2 :: t2))
                unfold canonPaired
                rw [canonPairs_step_eq hk hd1 hd2, List.map_cons]
                exact hpa.cons e1.name
              · intro p hp
                rw [canonPairs_step_eq hk hd1 hd2] at hp
                rcases List.mem_cons.mp hp with h | h
                · subst h
                  exact dispatch_ok_ford hdisp
                · exact hok p h
            · intro e h; rw [hres] at h; simp at h
            · intro _; exact ⟨_, hres⟩
      · -- e1 has the strictly greatest key: pop it, emit InDir1Only
        have hgt : keyLt e2 e1 := cmpKey_gt_iff.mp hk
        have hmax : ∀ y ∈ e2 :: t2, keyLt y e1 := by
          intro y hy
          rcases List.mem_cons.mp hy with h | h
          · exact h ▸ hgt
          · exact keyLt_trans (hd2 y h) hgt
        have ihs := ih t1 (e2 :: t2)
          (by simp only [List.length_cons] at hn ⊢; omega) hs1t hs2
        rcases hrec : procRev dir c t1 (e2 :: t2) with e | out
        · have hres : procRev dir c (e1 :: t1) (e2 :: t2) = .error e := by
            rw [procRev]; simp only [hk, hrec]
          refine ⟨?_, ?_, ?_⟩
          · intro out h; rw [hres] at h; simp at h
          · intro e' h
            rw [hres] at h
            cases h
            obtain ⟨f1, f2, hf1, hf2, hkey, ho1, ho2, he⟩ := ihs.2.1 e hrec
            exact ⟨f1, f2, List.mem_cons_of_mem e1 hf1, hf2, hkey, ho1, ho2, he⟩
          · intro hok
            have hok' : canonOk t1 (e2 :: t2) := by
              unfold canonOk at hok ⊢
              rw [canonPairs_step_gt hmax] at hok
              exact hok
            obtain ⟨out, hout⟩ := ihs.2.2 hok'
            rw [hout] at hrec
            simp at hrec
        · have hres : procRev dir c (e1 :: t1) (e2 :: t2) =
              .ok { out with events := .InDir1Only dir e1.name :: out.events } := by
            rw [procRev]; simp only [hk, hrec]
          obtain ⟨⟨hev, hpu, hop, hpa⟩, hok⟩ := ihs.1 out hrec
          refine ⟨?_, ?_, ?_⟩
          · intro out' h
            rw [hres] at h
            cases h
            refine ⟨⟨?_, ?_, ?_, ?_⟩, ?_⟩
            · rw [canonEvents_step_gt dir c hmax]
              exact perm_cons_front _ hev
            · show out.pushes.Perm (canonPushes dir c (e1 :: t1) (e2 :: t2))
              unfold canonPushes
              rw [canonPairs_step_gt hmax]
              exact hpu
            · show out.opens.Perm (canonOpens dir c (e1 :: t1) (e2 :: t2))
              unfold canonOpens
              rw [canonPairs_step_gt hmax]
              exact hop
            · show out.paired.Perm (canonPaired (e1 :: t1) (e2 :: t2))
              unfold canonPaired
              rw [canonPairs_step_gt hmax]
              exact hpa
            · unfold canonOk
              rw [canonPairs_step_gt hmax]
              exact hok
          · intro e h; rw [hres] at h; simp at h
          · intro _; exact ⟨_, hres⟩

/-! ## The classical low-end merge (from the specification's words)

`classicalMerge` is not a translation of the source: it follows §4.2 of the
specification — "a classical ordered merge": compare the head (lowest) sort
keys of the two ascending listings, pop the smaller side and emit its
one-sided event, and on equal keys pop both and dispatch.  The refinement
claim compares `processPairs` against it. -/
def classicalMerge (dir : List Nat) (check_mtime : Bool) :
    List FileT → List FileT → Except PErr POut
  | [], l2 => .ok ⟨l2.map (fun e => .InDir2Only dir e.name), [], [], []⟩
  | e1 :: t1, [] => .ok ⟨(e1 :: t1).map (fun e => .InDir1Only dir e.name), [], [], []⟩
  | e1 :: t1, e2 :: t2 =>
    match cmpKey e1 e2 with
    | .lt =>
      match classicalMerge dir check_mtime t1 (e2 :: t2) with
      | .error e => .error e
      | .ok out => .ok { out with events := .InDir1Only dir e1.name :: out.events }
    | .gt =>
      match classicalMerge dir check_mtime (e1 :: t1) t2 with
      | .error e => .error e
      | .ok out => .ok { out with events := .InDir2Only dir e2.name :: out.events }
    | .eq =>
      match dispatch dir check_mtime e1 e2 with
      | .error e => .error e
      | .ok st =>
        match classicalMerge dir check_mtime t1 t2 with
        | .error e => .error e
        | .ok out =>
          .ok ⟨st.events ++ out.events, st.pushes ++ out.pushes,
               st.opens ++ out.opens, e1.name :: out.paired⟩
termination_by l1 l2 => l1.length + l2.length
decreasing_by all_goals simp <;> omega

theorem canonPairs_min_left {e1 : FileT} {t1 l2 : List FileT}
    (hmin : ∀ y ∈ l2, keyLt e1 y) :
    canonPairs (e1 :: t1) l2 = canonPairs t1 l2 := by
  rw [canonPairs_cons_left,
    List.filter_eq_nil_iff.mpr
      (fun b hb => by simp only [decide_eq_true_eq]; exact keyLt_not_eq (hmin b hb))]
  simp

theorem canonPairs_min_right {e2 : FileT} {l1 t2 : List FileT}
    (hmin : ∀ x ∈ l1, keyLt e2 x) :
    canonPairs l1 (e2 :: t2) = canonPairs l1 t2 :=
  canonPairs_drop_right (fun a ha => keyLt_not_eq' (hmin a ha))

theorem canonPairs_min_eq {e1 e2 : FileT} {t1 t2 : List FileT}
    (hk : cmpKey e1 e2 = .eq) (hm1 : ∀ x ∈ t1, keyLt e1 x)
    (hm2 : ∀ y ∈ t2, keyLt e2 y) :
    canonPairs (e1 :: t1) (e2 :: t2) = (e1, e2) :: canonPairs t1 t2 := by
  have f1 : ∀ x ∈ t1, cmpKey x e2 ≠ .eq :=
    fun x hx => keyLt_not_eq' (cmpKey_eq_trans_lt (cmpKey_eq_symm hk) (hm1 x hx))
  have f2 : ∀ y ∈ t2, cmpKey e1 y ≠ .eq :=
    fun y hy => keyLt_not_eq (cmpKey_eq_trans_lt hk (hm2 y hy))
  rw [canonPairs_cons_left, List.filter_cons_of_pos (by simp [hk]),
    List.filter_eq_nil_iff.mpr
      (fun b hb => by simp only [decide_eq_true_eq]; exact f2 b hb),
    canonPairs_drop_right f1]
  simp

theorem canonEvents_min_left (dir : List Nat) (c : Bool) {e1 : FileT}
    {t1 l2 : List FileT} (hmin : ∀ y ∈ l2, keyLt e1 y) :
    canonEvents dir c (e1 :: t1) l2 =
      (Diff.InDir1Only dir e1.name ::
          (t1.filter (fun e => !matchedIn e l2)).map
            (fun e => Diff.InDir1Only dir e.name))
        ++ (l2.filter (fun e => !matchedIn e t1)).map
            (fun e => Diff.InDir2Only dir e.name)
        ++ (canonPairs t1 l2).flatMap (fun p => (pairStep dir c p).events) := by
  have hA : (e1 :: t1).filter (fun e => !matchedIn e l2) =
      e1 :: t1.filter (fun e => !matchedIn e l2) := by
    rw [List.filter_cons_of_pos]
    simp only [Bool.not_eq_true']
    exact matchedIn_eq_false.mpr (fun y hy => keyLt_not_eq (hmin y hy))
  have hB : l2.filter (fun e => !matchedIn e (e1 :: t1)) =
      l2.filter (fun e => !matchedIn e t1) :=
    List.filter_congr
      (fun y hy => by rw [matchedIn_cons_of_ne (keyLt_not_eq' (hmin y hy))])
  unfold canonEvents
  rw [canonPairs_min_left hmin, hA, hB, List.map_cons]

theorem canonEvents_min_right (dir : List Nat) (c : Bool) {e2 : FileT}
    {l1 t2 : List FileT} (hmin : ∀ x ∈ l1, keyLt e2 x) :
    canonEvents dir c l1 (e2 :: t2) =
      (l1.filter (fun e => !matchedIn e t2)).map (fun e => Diff.InDir1Only dir e.name)
        ++ (Diff.InDir2Only dir e2.name ::
            (t2.filter (fun e => !matchedIn e l1)).map
              (fun e => Diff.InDir2Only dir e.name))
        ++ (canonPairs l1 t2).flatMap (fun p => (pairStep dir c p).events) := by
  have hA : l1.filter (fun e => !matchedIn e (e2 :: t2)) =
      l1.filter (fun e => !matchedIn e t2) :=
    List.filter_congr
      (fun x hx => by rw [matchedIn_cons_of_ne (keyLt_not_eq' (hmin x hx))])
  have hB : (e2 :: t2).filter (fun e => !matchedIn e l1) =
      e2 :: t2.filter (fun e => !matchedIn e l1) := by
    rw [List.filter_cons_of_pos]
    simp only [Bool.not_eq_true']
    exact matchedIn_eq_false.mpr (fun x hx => keyLt_not_eq (hmin x hx))
  unfold canonEvents
  rw [canonPairs_min_right hmin, hA, hB, List.map_cons]

theorem canonEvents_min_eq (dir : List Nat) (c : Bool) {e1 e2 : FileT}
    {t1 t2 : List FileT} (hk : cmpKey e1 e2 = .eq)
    (hm1 : ∀ x ∈ t1, keyLt e1 x) (hm2 : ∀ y ∈ t2, keyLt e2 y) :
    canonEvents dir c (e1 :: t1) (e2 :: t2) =
      (t1.filter (fun e => !matchedIn e t2)).map (fun e => Diff.InDir1Only dir e.name)
        ++ (t2.filter (fun e => !matchedIn e t1)).map
            (fun e => Diff.InDir2Only dir e.name)
        ++ ((pairStep dir c (e1, e2)).events
            ++ (canonPairs t1 t2).flatMap (fun p => (pairStep dir c p).events)) := by
  have f1 : ∀ x ∈ t1, cmpKey x e2 ≠ .eq :=
    fun x hx => keyLt_not_eq' (cmpKey_eq_trans_lt (cmpKey_eq_symm hk) (hm1 x hx))
  have g1 : ∀ y ∈ t2, cmpKey y e1 ≠ .eq :=
    fun y hy => keyLt_not_eq' (cmpKey_eq_trans_lt hk (hm2 y hy))
  have hA : (e1 :: t1).filter (fun e => !matchedIn e (e2 :: t2)) =
      t1.filter (fun e => !matchedIn e t2) := by
    rw [List.filter_cons_of_neg (by simp [matchedIn_cons, hk])]
    exact List.filter_congr (fun x hx => by rw [matchedIn_cons_of_ne (f1 x hx)])
  have hB : (e2 :: t2).filter (fun e => !matchedIn e (e1 :: t1)) =
      t2.filter (fun e => !matchedIn e t1) := by
    rw [List.filter_cons_of_neg (by simp [matchedIn_cons, cmpKey_eq_symm hk])]
    exact List.filter_congr (fun y hy => by rw [matchedIn_cons_of_ne (g1 y hy)])
  unfold canonEvents
  rw [canonPairs_min_eq hk hm1 hm2, List.flatMap_cons, hA, hB]

theorem classicalMerge_canon_nil_left (dir : List Nat) (c : Bool) (l2 : List FileT) :
    (∀ out, classicalMerge dir c [] l2 = .ok out →
      outPerm out dir c [] l2 ∧ canonOk [] l2) ∧
    (∀ e, classicalMerge dir c [] l2 = .error e → errShape dir e [] l2) ∧
    (canonOk [] l2 → ∃ out, classicalMerge dir c [] l2 = .ok out) := by
  have hres : classicalMerge dir c [] l2 =
      .ok ⟨l2.map (fun e => .InDir2Only dir e.name), [], [], []⟩ := by
    rw [classicalMerge]
  have hpairs : canonPairs [] l2 = [] := rfl
  refine ⟨?_, ?_, ?_⟩
  · intro out h
    rw [hres] at h
    cases h
    have hcanon : canonEvents dir c [] l2 =
        l2.map (fun e => Diff.InDir2Only dir e.name) := by
      unfold canonEvents
      rw [hpairs]
      simp [matchedIn_nil]
    refine ⟨⟨?_, ?_, ?_, ?_⟩, ?_⟩
    · rw [hcanon]
    · exact List.Perm.refl []
    · exact List.Perm.refl []
    · exact List.Perm.refl []
    · intro p hp
      rw [hpairs] at hp
      simp at hp
  · intro e h
    rw [hres] at h
    simp at h
  · intro _
    exact ⟨_, hres⟩

theorem classicalMerge_canon_nil_right (dir : List Nat) (c : Bool) (e1 : FileT)
    (t1 : List FileT) :
    (∀ out, classicalMerge dir c (e1 :: t1) [] = .ok out →
      outPerm out dir c (e1 :: t1) [] ∧ canonOk (e1 :: t1) []) ∧
    (∀ e, classicalMerge dir c (e1 :: t1) [] = .error e →
      errShape dir e (e1 :: t1) []) ∧
    (canonOk (e1 :: t1) [] → ∃ out, classicalMerge dir c (e1 :: t1) [] = .ok out) := by
  have hres : classicalMerge dir c (e1 :: t1) [] =
      .ok ⟨(e1 :: t1).map (fun e => .InDir1Only dir e.name), [], [], []⟩ := by
    rw [classicalMerge]
  have hpairs := canonPairs_nil_right (e1 :: t1)
  refine ⟨?_, ?_, ?_⟩
  · intro out h
    rw [hres] at h
    cases h
    have hcanon : canonEvents dir c (e1 :: t1) [] =
        (e1 :: t1).map (fun e => Diff.InDir1Only dir e.name) := by
      unfold canonEvents
      rw [hpairs]
      simp [matchedIn_nil]
    refine ⟨⟨?_, ?_, ?_, ?_⟩, ?_⟩
    · rw [hcanon]
    · show List.Perm [] (canonPushes dir c (e1 :: t1) [])
      unfold canonPushes
      rw [hpairs]
      exact List.Perm.refl []
    · show List.Perm [] (canonOpens dir c (e1 :: t1) [])
      unfold canonOpens
      rw [hpairs]
      exact List.Perm.refl []
    · show List.Perm [] (canonPaired (e1 :: t1) [])
      unfold canonPaired
      rw [hpairs]
      exact List.Perm.refl []
    · intro p hp
      rw [hpairs] at hp
      simp at hp
  · intro e h
    rw [hres] at h
    simp at h
  · intro _
    exact ⟨_, hres⟩

theorem classicalMerge_canon (dir : List Nat) (c : Bool) :
    ∀ n l1 l2, l1.length + l2.length ≤ n → SortedAsc l1 → SortedAsc l2 →
      (∀ out, classicalMerge dir c l1 l2 = .ok out →
        outPerm out dir c l1 l2 ∧ canonOk l1 l2) ∧
      (∀ e, classicalMerge dir c l1 l2 = .error e → errShape dir e l1 l2) ∧
      (canonOk l1 l2 → ∃ out, classicalMerge dir c l1 l2 = .ok out) := by
  intro n
  induction n with
  | zero =>
    intro l1 l2 hn _ _
    have h1 : l1 = [] := List.length_eq_zero.mp (by omega)
    subst h1
    exact classicalMerge_canon_nil_left dir c l2
  | succ m ih =>
    intro l1 l2 hn hs1 hs2
    match l1, l2 with
    | [], l2 => exact classicalMerge_canon_nil_left dir c l2
    | e1 :: t1, [] => exact classicalMerge_canon_nil_right dir c e1 t1
    | e1 :: t1, e2 :: t2 =>
      obtain ⟨ha1, hs1t⟩ := sortedAsc_cons hs1
      obtain ⟨ha2, hs2t⟩ := sortedAsc_cons hs2
      rcases hk : cmpKey e1 e2 with _ | _ | _
      · -- e1 has the strictly least key: pop it, emit InDir1Only
        have hlt : keyLt e1 e2 := cmpKey_lt_iff.mp hk
        have hmin : ∀ y ∈ e2 :: t2, keyLt e1 y := by
          intro y hy
          rcases List.mem_cons.mp hy with h | h
          · exact h ▸ hlt
          · exact keyLt_trans hlt (ha2 y h)
        have ihs := ih t1 (e2 :: t2)
          (by simp only [List.length_cons] at hn ⊢; omega) hs1t hs2
        rcases hrec : classicalMerge dir c t1 (e2 :: t2) with e | out
        · have hres : classicalMerge dir c (e1 :: t1) (e2 :: t2) = .error e := by
            rw [classicalMerge]; simp only [hk, hrec]
          refine ⟨?_, ?_, ?_⟩
          · intro out h; rw [hres] at h; simp at h
          · intro e' h
            rw [hres] at h
            cases h
            obtain ⟨f1, f2, hf1, hf2, hkey, ho1, ho2, he⟩ := ihs.2.1 e hrec
            exact ⟨f1, f2, List.mem_cons_of_mem e1 hf1, hf2, hkey, ho1, ho2, he⟩
          · intro hok
            have hok' : canonOk t1 (e2 :: t2) := by
              unfold canonOk at hok ⊢
              rw [canonPairs_min_left hmin] at hok
              exact hok
            obtain ⟨out, hout⟩ := ihs.2.2 hok'
            rw [hout] at hrec
            simp at hrec
        · have hres : classicalMerge dir c (e1 :: t1) (e2 :: t2) =
              .ok { out with events := .InDir1Only dir e1.name :: out.events } := by
            rw [classicalMerge]; simp only [hk, hrec]
          obtain ⟨⟨hev, hpu, hop, hpa⟩, hok⟩ := ihs.1 out hrec
          refine ⟨?_, ?_, ?_⟩
          · intro out' h
            rw [hres] at h
            cases h
            refine ⟨⟨?_, ?_, ?_, ?_⟩, ?_⟩
            · rw [canonEvents_min_left dir c hmin]
              exact perm_cons_front _ hev
            · show out.pushes.Perm (canonPushes dir c (e1 :: t1) (e2 :: t2))
              unfold canonPushes
              rw [canonPairs_min_left hmin]
              exact hpu
            · show out.opens.Perm (canonOpens dir c (e1 :: t1) (e2 :: t2))
              unfold canonOpens
              rw [canonPairs_min_left hmin]
              exact hop
            · show out.paired.Perm (canonPaired (e1 :: t1) (e2 :: t2))
              unfold canonPaired
              rw [canonPairs_min_left hmin]
              exact hpa
            · unfold canonOk
              rw [canonPairs_min_left hmin]
              exact hok
          · intro e h; rw [hres] at h; simp at h
          · intro _; exact ⟨_, hres⟩
      · -- equal keys: pop both and dispatch
        have ihs := ih t1 t2
          (by simp only [List.length_cons] at hn ⊢; omega) hs1t hs2t
        rcases hdisp : dispatch dir c e1 e2 with e | st
        · have hres : classicalMerge dir c (e1 :: t1) (e2 :: t2) = .error e := by
            rw [classicalMerge]; simp only [hk, hdisp]
          obtain ⟨hford1, hford2, he⟩ := dispatch_error_shape hk hdisp
          refine ⟨?_, ?_, ?_⟩
          · intro out h; rw [hres] at h; simp at h
          · intro e' h
            rw [hres] at h
            cases h
            exact ⟨e1, e2, List.mem_cons_self e1 t1, List.mem_cons_self e2 t2,
              hk, hford1, hford2, he⟩
          · intro hok
            exfalso
            have hmem : (e1, e2) ∈ canonPairs (e1 :: t1) (e2 :: t2) := by
              rw [canonPairs_min_eq hk ha1 ha2]
              exact List.mem_cons_self _ _
            exact hok (e1, e2) hmem hford1
        · rcases hrec : classicalMerge dir c t1 t2 with e | out
          · have hres : classicalMerge dir c (e1 :: t1) (e2 :: t2) = .error e := by
              rw [classicalMerge]; simp only [hk, hdisp, hrec]
            refine ⟨?_, ?_, ?_⟩
            · intro out h; rw [hres] at h; simp at h
            · intro e' h
              rw [hres] at h
              cases h
              obtain ⟨f1, f2, hf1, hf2, hkey, ho1, ho2, he⟩ := ihs.2.1 e hrec
              exact ⟨f1, f2, List.mem_cons_of_mem e1 hf1,
                List.mem_cons_of_mem e2 hf2, hkey, ho1, ho2, he⟩
            · intro hok
              have hok' : canonOk t1 t2 := by
                intro p hp
                refine hok p ?_
                rw [canonPairs_min_eq hk ha1 ha2]
                exact List.mem_cons_of_mem _ hp
              obtain ⟨out, hout⟩ := ihs.2.2 hok'
              rw [hout] at hrec
              simp at hrec
          · have hres : classicalMerge dir c (e1 :: t1) (e2 :: t2) =
                .ok ⟨st.events ++ out.events, st.pushes ++ out.pushes,
                     st.opens ++ out.opens, e1.name :: out.paired⟩ := by
              rw [classicalMerge]; simp only [hk, hdisp, hrec]
            obtain ⟨⟨hev, hpu, hop, hpa⟩, hok⟩ := ihs.1 out hrec
            have hps := pairStep_of_ok hdisp
            refine ⟨?_, ?_, ?_⟩
            · intro out' h
              rw [hres] at h
              cases h
              refine ⟨⟨?_, ?_, ?_, ?_⟩, ?_⟩
              · rw [canonEvents_min_eq dir c hk ha1 ha2, hps]
                exact perm_front_mid _ hev
              · show (st.pushes ++ out.pushes).Perm
                  (canonPushes dir c (e1 :: t1) (e2 :: t2))
                unfold canonPushes
                rw [canonPairs_min_eq hk ha1 ha2, List.flatMap_cons, hps]
                exact hpu.append_left st.pushes
              · show (st.opens ++ out.opens).Perm
                  (canonOpens dir c (e1 :: t1) (e2 :: t2))
                unfold canonOpens
                rw [canonPairs_min_eq hk ha1 ha2, List.flatMap_cons, hps]
                exact hop.append_left st.opens
              · show (e1.name :: out.paired).Perm (canonPaired (e1 :: t1) (e2 :: t2))
                unfold canonPaired
                rw [canonPairs_min_eq hk ha1 ha2, List.map_cons]
                exact hpa.cons e1.name
              · intro p hp
                rw [canonPairs_min_eq hk ha1 ha2] at hp
                rcases List.mem_cons.mp hp with h | h
                · subst h
                  exact dispatch_ok_ford hdisp
                · exact hok p h
            · intro e h; rw [hres] at h; simp at h
            · intro _; exact ⟨_, hres⟩
      · -- e2 has the strictly least key: pop it, emit InDir2Only
        have hgt : keyLt e2 e1 := cmpKey_gt_iff.mp hk
        have hmin : ∀ x ∈ e1 :: t1, keyLt e2 x := by
          intro x hx
          rcases List.mem_cons.mp hx with h | h
          · exact h ▸ hgt
          · exact keyLt_trans hgt (ha1 x h)
        have ihs := ih (e1 :: t1) t2
          (by simp only [List.length_cons] at hn ⊢; omega) hs1 hs2t
        rcases hrec : classicalMerge dir c (e1 :: t1) t2 with e | out
        · have hres : classicalMerge dir c (e1 :: t1) (e2 :: t2) = .error e := by
            rw [classicalMerge]; simp only [hk, hrec]
          refine ⟨?_, ?_, ?_⟩
          · intro out h; rw [hres] at h; simp at h
          · intro e' h
            rw [hres] at h
            cases h
            obtain ⟨f1, f2, hf1, hf2, hkey, ho1, ho2, he⟩ := ihs.2.1 e hrec
            exact ⟨f1, f2, hf1, List.mem_cons_of_mem e2 hf2, hkey, ho1, ho2, he⟩
          · intro hok
            have hok' : canonOk (e1 :: t1) t2 := by
              unfold canonOk at hok ⊢
              rw [canonPairs_min_right hmin] at hok
              exact hok
            obtain ⟨out, hout⟩ := ihs.2.2 hok'
            rw [hout] at hrec
            simp at hrec
        · have hres : classicalMerge dir c (e1 :: t1) (e2 :: t2) =
              .ok { out with events := .InDir2Only dir e2.name :: out.events } := by
            rw [classicalMerge]; simp only [hk, hrec]
          obtain ⟨⟨hev, hpu, hop, hpa⟩, hok⟩ := ihs.1 out hrec
          refine ⟨?_, ?_, ?_⟩
          · intro out' h
            rw [hres] at h
            cases h
            refine ⟨⟨?_, ?_, ?_, ?_⟩, ?_⟩
            · rw [canonEvents_min_right dir c hmin]
              exact perm_cons_mid _ hev
            · show out.pushes.Perm (canonPushes dir c (e1 :: t1) (e2 :: t2))
              unfold canonPushes
              rw [canonPairs_min_right hmin]
              exact hpu
            · show out.opens.Perm (canonOpens dir c (e1 :: t1) (e2 :: t2))
              unfold canonOpens
              rw [canonPairs_min_right hmin]
              exact hop
            · show out.paired.Perm (canonPaired (e1 :: t1) (e2 :: t2))
              unfold canonPaired
              rw [canonPairs_min_right hmin]
              exact hpa
            · unfold canonOk
              rw [canonPairs_min_right hmin]
              exact hok
          · intro e h; rw [hres] at h; simp at h
          · intro _; exact ⟨_, hres⟩

/-! ## Transport of the canon along reversal, and the bridge lemma -/

theorem matchedIn_reverse (e : FileT) (l : List FileT) :
    matchedIn e l.reverse = matchedIn e l := by
  simp [matchedIn, List.any_reverse]

theorem canonPairs_reverse_perm (l1 l2 : List FileT) :
    (canonPairs l1.reverse l2.reverse).Perm (canonPairs l1 l2) := by
  unfold canonPairs
  have hinner : ∀ a ∈ l1.reverse,
      ((l2.reverse.filter (fun b => decide (cmpKey a b = .eq))).map
        (fun b => (a, b))).Perm
      ((l2.filter (fun b => decide (cmpKey a b = .eq))).map (fun b => (a, b))) := by
    intro a _
    rw [List.filter_reverse]
    exact (List.reverse_perm _).map _
  refine (List.Perm.flatMap_left _ hinner).trans ?_
  exact (List.reverse_perm l1).flatMap_right _

theorem canonEvents_reverse_perm (dir : List Nat) (c : Bool) (l1 l2 : List FileT) :
    (canonEvents dir c l1.reverse l2.reverse).Perm (canonEvents dir c l1 l2) := by
  unfold canonEvents
  refine List.Perm.append (List.Perm.append ?_ ?_) ?_
  · have hp : l1.reverse.filter (fun e => !matchedIn e l2.reverse) =
        (l1.filter (fun e => !matchedIn e l2)).reverse := by
      rw [← List.filter_reverse]
      exact List.filter_congr (fun e _ => by rw [matchedIn_reverse])
    rw [hp]
    exact (List.reverse_perm _).map _
  · have hp : l2.reverse.filter (fun e => !matchedIn e l1.reverse) =
        (l2.filter (fun e => !matchedIn e l1)).reverse := by
      rw [← List.filter_reverse]
      exact List.filter_congr (fun e _ => by rw [matchedIn_reverse])
    rw [hp]
    exact (List.reverse_perm _).map _
  · exact (canonPairs_reverse_perm l1 l2).flatMap_right _

theorem canonPushes_reverse_perm (dir : List Nat) (c : Bool) (l1 l2 : List FileT) :
    (canonPushes dir c l1.reverse l2.reverse).Perm (canonPushes dir c l1 l2) :=
  (canonPairs_reverse_perm l1 l2).flatMap_right _

theorem canonOpens_reverse_perm (dir : List Nat) (c : Bool) (l1 l2 : List FileT) :
    (canonOpens dir c l1.reverse l2.reverse).Perm (canonOpens dir c l1 l2) :=
  (canonPairs_reverse_perm l1 l2).flatMap_right _

theorem canonPaired_reverse_perm (l1 l2 : List FileT) :
    (canonPaired l1.reverse l2.reverse).Perm (canonPaired l1 l2) :=
  (canonPairs_reverse_perm l1 l2).map _

theorem canonOk_reverse (l1 l2 : List FileT) :
    canonOk l1.reverse l2.reverse ↔ canonOk l1 l2 := by
  unfold canonOk
  constructor <;> intro h p hp
  · exact h p ((canonPairs_reverse_perm l1 l2).mem_iff.mpr hp)
  · exact h p ((canonPairs_reverse_perm l1 l2).mem_iff.mp hp)

theorem sortedDesc_reverse {l : List FileT} (h : SortedAsc l) :
    SortedDesc l.reverse := by
  unfold SortedAsc at h
  unfold SortedDesc
  rw [List.pairwise_reverse]
  exact h

/-- `processPairs` on ascending strictly sorted listings computes exactly the
canon: permutation-equal outputs on success, `errShape` aborts, and success
exactly when no pair has type order 3. -/
theorem processPairs_canon (dir : List Nat) (c : Bool) (l1 l2 : List FileT)
    (hs1 : SortedAsc l1) (hs2 : SortedAsc l2) :
    (∀ out, processPairs dir c l1 l2 = .ok out →
      outPerm out dir c l1 l2 ∧ canonOk l1 l2) ∧
    (∀ e, processPairs dir c l1 l2 = .error e → errShape dir e l1 l2) ∧
    (canonOk l1 l2 → ∃ out, processPairs dir c l1 l2 = .ok out) := by
  have heq := processPairs_eq_procRev dir c (l1.length + l2.length) l1 l2 le_rfl
  have hmain := procRev_canon dir c (l1.reverse.length + l2.reverse.length)
    l1.reverse l2.reverse le_rfl (sortedDesc_reverse hs1) (sortedDesc_reverse hs2)
  refine ⟨?_, ?_, ?_⟩
  · intro out h
    rw [heq] at h
    obtain ⟨⟨hev, hpu, hop, hpa⟩, hok⟩ := hmain.1 out h
    exact ⟨⟨hev.trans (canonEvents_reverse_perm dir c l1 l2),
      hpu.trans (canonPushes_reverse_perm dir c l1 l2),
      hop.trans (canonOpens_reverse_perm dir c l1 l2),
      hpa.trans (canonPaired_reverse_perm l1 l2)⟩,
      (canonOk_reverse l1 l2).mp hok⟩
  · intro e h
    rw [heq] at h
    obtain ⟨f1, f2, hf1, hf2, hkey, ho1, ho2, he⟩ := hmain.2.1 e h
    exact ⟨f1, f2, List.mem_reverse.mp hf1, List.mem_reverse.mp hf2,
      hkey, ho1, ho2, he⟩
  · intro hok
    obtain ⟨out, hout⟩ := hmain.2.2 ((canonOk_reverse l1 l2).mpr hok)
    exact ⟨out, by rw [heq]; exact hout⟩

/-! ## Counting events per name -/

theorem file_type_order_eq_zero {ft : FType} : file_type_order ft = 0 ↔ ft = .dir := by
  cases ft <;> simp [file_type_order]

theorem file_type_order_eq_one {ft : FType} :
    file_type_order ft = 1 ↔ ft = .symlink := by
  cases ft <;> simp [file_type_order]

theorem file_type_order_eq_two {ft : FType} :
    file_type_order ft = 2 ↔ ft = .regular := by
  cases ft <;> simp [file_type_order]

theorem NamesNodup_eq_of_name {l : List FileT} (h : NamesNodup l) {a b : FileT}
    (ha : a ∈ l) (hb : b ∈ l) (hn : a.name = b.name) : a = b := by
  induction l with
  | nil => simp at ha
  | cons x t ih =>
    unfold NamesNodup at h
    rw [List.map_cons, List.nodup_cons] at h
    obtain ⟨hx, ht⟩ := h
    rcases List.mem_cons.mp ha with ha' | ha' <;> rcases List.mem_cons.mp hb with hb' | hb'
    · rw [ha', hb']
    · subst ha'
      exact absurd (List.mem_map.mpr ⟨b, hb', hn.symm⟩) hx
    · subst hb'
      exact absurd (List.mem_map.mpr ⟨a, ha', hn⟩) hx
    · exact ih ht ha' hb'

theorem count_map_inDir1 (dir : List Nat) (nm : Nat) (l : List FileT) :
    (l.map (fun e => Diff.InDir1Only dir e.name)).count (Diff.InDir1Only dir nm)
      = (l.map (fun e => e.name)).count nm := by
  induction l with
  | nil => simp
  | cons a t ih =>
    by_cases h : a.name = nm <;>
      simp [List.count_cons, h, ih]

theorem count_map_inDir2 (dir : List Nat) (nm : Nat) (l : List FileT) :
    (l.map (fun e => Diff.InDir2Only dir e.name)).count (Diff.InDir2Only dir nm)
      = (l.map (fun e => e.name)).count nm := by
  induction l with
  | nil => simp
  | cons a t ih =>
    by_cases h : a.name = nm <;>
      simp [List.count_cons, h, ih]

theorem count_inDir1_in_map2 (dir dir' : List Nat) (nm : Nat) (l : List FileT) :
    (l.map (fun e => Diff.InDir2Only dir' e.name)).count (Diff.InDir1Only dir nm)
      = 0 := by
  rw [List.count_eq_zero]
  intro hmem
  simp at hmem

theorem count_inDir2_in_map1 (dir dir' : List Nat) (nm : Nat) (l : List FileT) :
    (l.map (fun e => Diff.InDir1Only dir' e.name)).count (Diff.InDir2Only dir nm)
      = 0 := by
  rw [List.count_eq_zero]
  intro hmem
  simp at hmem

theorem count_inDir1_in_pairs (dir : List Nat) (c : Bool) (nm : Nat)
    (pl : List (FileT × FileT)) :
    (pl.flatMap (fun p => (pairStep dir c p).events)).count (Diff.InDir1Only dir nm)
      = 0 := by
  rw [List.count_eq_zero]
  intro hmem
  rw [List.mem_flatMap] at hmem
  obtain ⟨p, _, hd⟩ := hmem
  rcases pairStep_events_shape p _ hd with h | h <;> simp at h

theorem count_inDir2_in_pairs (dir : List Nat) (c : Bool) (nm : Nat)
    (pl : List (FileT × FileT)) :
    (pl.flatMap (fun p => (pairStep dir c p).events)).count (Diff.InDir2Only dir nm)
      = 0 := by
  rw [List.count_eq_zero]
  intro hmem
  rw [List.mem_flatMap] at hmem
  obtain ⟨p, _, hd⟩ := hmem
  rcases pairStep_events_shape p _ hd with h | h <;> simp at h

theorem count_inDir1_canonEvents (dir : List Nat) (c : Bool) (nm : Nat)
    (l1 l2 : List FileT) :
    (canonEvents dir c l1 l2).count (Diff.InDir1Only dir nm)
      = ((l1.filter (fun e => !matchedIn e l2)).map (fun e => e.name)).count nm := by
  unfold canonEvents
  rw [List.count_append, List.count_append, count_map_inDir1,
    count_inDir1_in_map2, count_inDir1_in_pairs]
  omega

theorem count_inDir2_canonEvents (dir : List Nat) (c : Bool) (nm : Nat)
    (l1 l2 : List FileT) :
    (canonEvents dir c l1 l2).count (Diff.InDir2Only dir nm)
      = ((l2.filter (fun e => !matchedIn e l1)).map (fun e => e.name)).count nm := by
  unfold canonEvents
  rw [List.count_append, List.count_append, count_map_inDir2,
    count_inDir2_in_map1, count_inDir2_in_pairs]
  omega

theorem count_name_filter_one {nm : Nat} {p : FileT → Bool} {l : List FileT}
    (hnodup : NamesNodup l) {e : FileT} (he : e ∈ l) (hname : e.name = nm)
    (hp : p e = true)
    (hall : ∀ x ∈ l, x.name = nm → p x = true) :
    ((l.filter p).map (fun x => x.name)).count nm = 1 := by
  induction l with
  | nil => simp at he
  | cons a t ih =>
    unfold NamesNodup at hnodup
    rw [List.map_cons, List.nodup_cons] at hnodup
    obtain ⟨hx, ht⟩ := hnodup
    rcases List.mem_cons.mp he with he' | he'
    · subst he'
      rw [List.filter_cons_of_pos hp, List.map_cons, List.count_cons]
      have ht0 : ((t.filter p).map (fun x => x.name)).count nm = 0 := by
        rw [List.count_eq_zero]
        intro hmem
        obtain ⟨x, hxmem, hxn⟩ := List.mem_map.mp hmem
        exact hx (List.mem_map.mpr
          ⟨x, (List.mem_filter.mp hxmem).1, by rw [hxn, hname]⟩)
      simp [ht0, hname]
    · have hpa : ∀ hpa' : a.name = nm, False := by
        intro hpa'
        exact hx (List.mem_map.mpr ⟨e, he', by rw [hname, hpa']⟩)
      by_cases hpab : p a
      · rw [List.filter_cons_of_pos hpab, List.map_cons, List.count_cons]
        have hne : ¬ (nm = a.name) := fun hh => hpa hh.symm
        have hne' : ¬ (a.name = nm) := fun hh => hpa hh
        rw [ih ht he' (fun x hxm => hall x (List.mem_cons_of_mem a hxm))]
        simp [hne, hne']
      · rw [List.filter_cons_of_neg hpab]
        exact ih ht he' (fun x hxm => hall x (List.mem_cons_of_mem a hxm))

theorem count_name_filter_zero {nm : Nat} {p : FileT → Bool} {l : List FileT}
    (h : ∀ x ∈ l, x.name = nm → p x = false) :
    ((l.filter p).map (fun x => x.name)).count nm = 0 := by
  rw [List.count_eq_zero]
  intro hmem
  obtain ⟨x, hxmem, hxn⟩ := List.mem_map.mp hmem
  obtain ⟨hxl, hpx⟩ := List.mem_filter.mp hxmem
  rw [h x hxl hxn] at hpx
  cases hpx

theorem mem_different_canonEvents {dir : List Nat} {c : Bool} {nm : Nat}
    {l1 l2 : List FileT}
    (h : Diff.Different dir nm ∈ canonEvents dir c l1 l2) :
    ∃ p ∈ canonPairs l1 l2, p.1.name = nm := by
  unfold canonEvents at h
  rcases List.mem_append.mp h with h | h
  · rcases List.mem_append.mp h with h | h <;>
      (obtain ⟨e, _, he⟩ := List.mem_map.mp h; simp at he)
  · obtain ⟨p, hp, hd⟩ := List.mem_flatMap.mp h
    rcases pairStep_events_shape p _ hd with he | he
    · have : nm = p.1.name := by
        cases he
        rfl
      exact ⟨p, hp, this.symm⟩
    · cases he

theorem mem_mtime_canonEvents {dir : List Nat} {c : Bool} {nm : Nat}
    {l1 l2 : List FileT} :
    Diff.SameButDifferentMTime dir nm ∈ canonEvents dir c l1 l2 ↔
      ∃ p ∈ canonPairs l1 l2,
        Diff.SameButDifferentMTime dir nm ∈ (pairStep dir c p).events := by
  unfold canonEvents
  constructor
  · intro h
    rcases List.mem_append.mp h with h | h
    · rcases List.mem_append.mp h with h | h <;>
        (obtain ⟨e, _, he⟩ := List.mem_map.mp h; simp at he)
    · exact List.mem_flatMap.mp h
  · intro h
    exact List.mem_append.mpr (Or.inr (List.mem_flatMap.mpr h))

theorem mem_opens_canonOpens {dir : List Nat} {c : Bool} {nm : Nat}
    {l1 l2 : List FileT} (h : nm ∈ canonOpens dir c l1 l2) :
    ∃ p ∈ canonPairs l1 l2,
      (p.1.name = nm ∨ p.2.name = nm) ∧ p.1.len = p.2.len := by
  unfold canonOpens at h
  obtain ⟨p, hp, hd⟩ := List.mem_flatMap.mp h
  rcases hds : dispatch dir c p.1 p.2 with e | st
  · rw [show pairStep dir c p = ⟨[], [], []⟩ by unfold pairStep; rw [hds]] at hd
    simp at hd
  · rw [show pairStep dir c p = st by unfold pairStep; rw [hds]] at hd
    rcases dispatch_opens_shape hds with ho | ho
    · rw [ho] at hd
      simp at hd
    · rw [ho] at hd
      unfold opensOf at hd
      by_cases hlen : p.1.len = p.2.len
      · rw [if_neg (not_not_intro hlen)] at hd
        rcases List.mem_cons.mp hd with h' | h'
        · exact ⟨p, hp, Or.inl h'.symm, hlen⟩
        · simp at h'
          exact ⟨p, hp, Or.inr h'.symm, hlen⟩
      · rw [if_pos hlen] at hd
        simp at hd

theorem mem_canonPaired {nm : Nat} {l1 l2 : List FileT} :
    nm ∈ canonPaired l1 l2 ↔ ∃ p ∈ canonPairs l1 l2, p.1.name = nm := by
  unfold canonPaired
  simp [List.mem_map]

theorem count_map_const {α : Type} (k nm : Nat) (l : List α) :
    (l.map (fun _ => k)).count nm = if k = nm then l.length else 0 := by
  induction l with
  | nil => simp
  | cons a t ih =>
    by_cases h : k = nm <;> simp [List.count_cons, List.count_replicate, h, ih]

theorem filter_match_eq_singleton {e1 e2 : FileT} :
    ∀ {l2 : List FileT}, NamesNodup l2 → e2 ∈ l2 → cmpKey e1 e2 = .eq →
      l2.filter (fun b => decide (cmpKey e1 b = .eq)) = [e2] := by
  intro l2
  induction l2 with
  | nil => intro _ h; simp at h
  | cons b t2 ih =>
    intro hnodup hmem hk
    unfold NamesNodup at hnodup
    rw [List.map_cons, List.nodup_cons] at hnodup
    obtain ⟨hx, ht⟩ := hnodup
    have hname : e1.name = e2.name := (cmpKey_eq_iff.mp hk).2
    rcases List.mem_cons.mp hmem with hb | hb
    · subst hb
      rw [List.filter_cons_of_pos (by simp [hk])]
      congr 1
      rw [List.filter_eq_nil_iff]
      intro b' hb'
      simp only [decide_eq_true_eq]
      intro hk'
      have hn' : e2.name = b'.name := by
        rw [← hname]
        exact (cmpKey_eq_iff.mp hk').2
      exact hx (List.mem_map.mpr ⟨b', hb', hn'.symm⟩)
    · have hbne : cmpKey e1 b ≠ .eq := by
        intro hk'
        have : b.name = e2.name := by
          rw [← (cmpKey_eq_iff.mp hk').2, hname]
        exact hx (List.mem_map.mpr ⟨e2, hb, this.symm⟩)
      rw [List.filter_cons_of_neg (by simp [hbne])]
      exact ih ht hb hk

theorem count_canonPaired_zero {nm : Nat} {l1 l2 : List FileT}
    (h : ∀ x ∈ l1, x.name ≠ nm) :
    (canonPaired l1 l2).count nm = 0 := by
  rw [List.count_eq_zero]
  intro hmem
  obtain ⟨p, hp, hn⟩ := mem_canonPaired.mp hmem
  exact h p.1 (mem_canonPairs.mp hp).1 hn

theorem count_canonPaired_one {nm : Nat} {l2 : List FileT} (hn2 : NamesNodup l2)
    {e1 e2 : FileT} (he2 : e2 ∈ l2) (hname : e1.name = nm)
    (hk : cmpKey e1 e2 = .eq) :
    ∀ {l1 : List FileT}, NamesNodup l1 → e1 ∈ l1 →
      (canonPaired l1 l2).count nm = 1 := by
  intro l1
  induction l1 with
  | nil => intro _ h; simp at h
  | cons a t ih =>
    intro hnodup he1
    unfold NamesNodup at hnodup
    rw [List.map_cons, List.nodup_cons] at hnodup
    obtain ⟨hx, ht⟩ := hnodup
    have hsplit : canonPaired (a :: t) l2 =
        (l2.filter (fun b => decide (cmpKey a b = .eq))).map (fun _ => a.name)
          ++ canonPaired t l2 := by
      unfold canonPaired
      rw [canonPairs_cons_left, List.map_append, List.map_map]
      rfl
    rw [hsplit, List.count_append]
    rcases List.mem_cons.mp he1 with ha | ha
    · subst ha
      rw [filter_match_eq_singleton hn2 he2 hk]
      have ht0 : (canonPaired t l2).count nm = 0 := by
        apply count_canonPaired_zero
        intro x hxt hxn
        exact hx (List.mem_map.mpr ⟨x, hxt, by rw [hxn, ← hname]⟩)
      simp [ht0, count_map_const, hname]
    · have haname : a.name ≠ nm := by
        intro hh
        exact hx (List.mem_map.mpr ⟨e1, ha, by rw [hname, hh]⟩)
      rw [count_map_const, if_neg haname, ih ht ha]

theorem count_flatMap_events (dir : List Nat) (c : Bool) (x : Diff)
    (pl : List (FileT × FileT)) :
    (pl.flatMap (fun p => (pairStep dir c p).events)).count x =
      pl.countP (fun p => decide (x ∈ (pairStep dir c p).events)) := by
  induction pl with
  | nil => simp
  | cons p t ih =>
    rw [List.flatMap_cons, List.count_append, ih, List.countP_cons, Nat.add_comm]
    congr 1
    rcases hds : dispatch dir c p.1 p.2 with e | st
    · rw [show pairStep dir c p = ⟨[], [], []⟩ by unfold pairStep; rw [hds]]
      simp
    · rw [show pairStep dir c p = st by unfold pairStep; rw [hds]]
      rcases dispatch_events_shape hds with h | h | h <;> rw [h]
      · simp
      · by_cases hx : x = Diff.Different dir p.1.name <;>
          simp [List.count_cons, hx]
      · by_cases hx : x = Diff.SameButDifferentMTime dir p.2.name <;>
          simp [List.count_cons, hx]

theorem countP_canonPairs_one {nm : Nat}
    {l2 : List FileT} (hn2 : NamesNodup l2)
    (q : FileT × FileT → Bool) (hq : ∀ p, q p = true → p.1.name = nm)
    {e1 e2 : FileT} (he2 : e2 ∈ l2) (hname : e1.name = nm)
    (hk : cmpKey e1 e2 = .eq) (hqe : q (e1, e2) = true) :
    ∀ {l1 : List FileT}, NamesNodup l1 → e1 ∈ l1 →
      (canonPairs l1 l2).countP q = 1 := by
  intro l1
  induction l1 with
  | nil => intro _ h; simp at h
  | cons a t ih =>
    intro hnodup he1
    unfold NamesNodup at hnodup
    rw [List.map_cons, List.nodup_cons] at hnodup
    obtain ⟨hx, ht⟩ := hnodup
    rw [canonPairs_cons_left, List.countP_append, List.countP_map]
    rcases List.mem_cons.mp he1 with ha | ha
    · subst ha
      rw [filter_match_eq_singleton hn2 he2 hk]
      have ht0 : (canonPairs t l2).countP q = 0 := by
        rw [List.countP_eq_zero]
        intro p hp hqp
        have h1 : p.1 ∈ t := (mem_canonPairs.mp hp).1
        exact hx (List.mem_map.mpr ⟨p.1, h1, by rw [hq p hqp, ← hname]⟩)
      rw [ht0]
      simp [hqe]
    · have haname : a.name ≠ nm := by
        intro hh
        exact hx (List.mem_map.mpr ⟨e1, ha, by rw [hname, hh]⟩)
      have h0 : (l2.filter (fun b => decide (cmpKey a b = .eq))).countP
          ((fun p => decide (q p = true)) ∘ fun b => (a, b)) = 0 := by
        rw [List.countP_eq_zero]
        intro b _ hqb
        simp only [Function.comp_apply, decide_eq_true_eq] at hqb
        exact haname (hq (a, b) hqb)
      have h0' : (l2.filter (fun b => decide (cmpKey a b = .eq))).countP
          (fun b => q (a, b)) = 0 := by
        rw [List.countP_eq_zero]
        intro b _ hqb
        exact absurd (hq (a, b) hqb) haname
      rw [show ((q ∘ fun b => (a, b)) : FileT → Bool) = fun b => q (a, b) from rfl,
        h0', ih ht ha]

theorem count_diff_in_map1 (dir dir' : List Nat) (nm : Nat) (l : List FileT) :
    (l.map (fun e => Diff.InDir1Only dir' e.name)).count (Diff.Different dir nm)
      = 0 := by
  rw [List.count_eq_zero]
  intro hmem
  simp at hmem

theorem count_diff_in_map2 (dir dir' : List Nat) (nm : Nat) (l : List FileT) :
    (l.map (fun e => Diff.InDir2Only dir' e.name)).count (Diff.Different dir nm)
      = 0 := by
  rw [List.count_eq_zero]
  intro hmem
  simp at hmem

theorem count_diff_canonEvents (dir : List Nat) (c : Bool) (nm : Nat)
    (l1 l2 : List FileT) :
    (canonEvents dir c l1 l2).count (Diff.Different dir nm)
      = (canonPairs l1 l2).countP
          (fun p => decide (Diff.Different dir nm ∈ (pairStep dir c p).events)) := by
  unfold canonEvents
  rw [List.count_append, List.count_append, count_diff_in_map1,
    count_diff_in_map2, count_flatMap_events]
  omega

theorem sameContent_false_of_len_ne {a b : FileT} (h : a.len ≠ b.len) :
    sameContent a b = false := by
  unfold sameContent
  rw [if_pos h]

theorem dispatch_ford2_diff {dir : List Nat} {c : Bool} {a b : FileT}
    (h2a : file_type_order a.ftype = 2) (h2b : file_type_order b.ftype = 2)
    (hsc : sameContent a b = false) :
    dispatch dir c a b = .ok ⟨[.Different dir a.name], [], opensOf a b⟩ := by
  unfold dispatch
  rw [if_neg (by omega), if_neg (by omega), if_neg (by omega), if_pos h2a,
    if_pos (by simp [hsc])]

theorem dispatch_ford2_mtime {dir : List Nat} {c : Bool} {a b : FileT}
    (h2a : file_type_order a.ftype = 2) (h2b : file_type_order b.ftype = 2)
    (hsc : sameContent a b = true) (hc : c = true) (hmt : a.mtime ≠ b.mtime) :
    dispatch dir c a b =
      .ok ⟨[.SameButDifferentMTime dir b.name], [], opensOf a b⟩ := by
  unfold dispatch
  rw [if_neg (by omega), if_neg (by omega), if_neg (by omega), if_pos h2a,
    if_neg (by simp [hsc]), if_pos ⟨hc, hmt⟩]

theorem dispatch_mtime_inv {dir : List Nat} {c : Bool} {a b : FileT} {st : Step}
    {nm : Nat} (h : dispatch dir c a b = .ok st)
    (hm : Diff.SameButDifferentMTime dir nm ∈ st.events) :
    file_type_order a.ftype = 2 ∧ file_type_order b.ftype = 2 ∧
      sameContent a b = true ∧ c = true ∧ a.mtime ≠ b.mtime ∧ nm = b.name := by
  have hforde : file_type_order a.ftype = file_type_order b.ftype := by
    by_contra hne
    rw [dispatch, if_pos hne] at h
    cases h
  unfold dispatch at h
  split_ifs at h with hne h0 h1 htgt h2 hsc hmt <;> cases h <;> simp at hm
  exact ⟨h2, by omega, hsc, hmt.1, hmt.2, hm⟩

/-! ## Claim theorems -/

/-- C1: For every pair of directory listings sorted by the key
`(TypeOrder, name)` (strictly, names being distinct within a directory),
the high-end peek/pop merge of `process_path` produces exactly the events
and recursion pushes that a classical ordered merge of the two sorted
listings would produce — the outputs of `processPairs` and
`classicalMerge` are permutations of each other, and both abort together —
and per name: a name present on only one side yields exactly one
`InDir1Only`/`InDir2Only` event and is never dispatched as a pair, while a
name present on both sides with equal sort key is dispatched as exactly
one pair and yields no one-sided event. -/
theorem processPairs_matches_classicalMerge (dir : List Nat) (c : Bool)
    (l1 l2 : List FileT) (hs1 : SortedAsc l1) (hs2 : SortedAsc l2)
    (hn1 : NamesNodup l1) (hn2 : NamesNodup l2) :
    (match processPairs dir c l1 l2, classicalMerge dir c l1 l2 with
     | .ok o1, .ok o2 =>
        o1.events.Perm o2.events ∧ o1.pushes.Perm o2.pushes ∧
          o1.opens.Perm o2.opens ∧ o1.paired.Perm o2.paired
     | .error _, .error _ => True
     | _, _ => False) ∧
    (∀ out, processPairs dir c l1 l2 = .ok out → ∀ nm,
      ((∃ e ∈ l1, e.name = nm) → (¬ ∃ e ∈ l2, e.name = nm) →
        out.events.count (.InDir1Only dir nm) = 1 ∧
        out.events.count (.InDir2Only dir nm) = 0 ∧ nm ∉ out.paired) ∧
      ((¬ ∃ e ∈ l1, e.name = nm) → (∃ e ∈ l2, e.name = nm) →
        out.events.count (.InDir2Only dir nm) = 1 ∧
        out.events.count (.InDir1Only dir nm) = 0 ∧ nm ∉ out.paired) ∧
      ((∃ e1 ∈ l1, ∃ e2 ∈ l2, e1.name = nm ∧ cmpKey e1 e2 = .eq) →
        out.paired.count nm = 1 ∧
        out.events.count (.InDir1Only dir nm) = 0 ∧
        out.events.count (.InDir2Only dir nm) = 0)) := by
  have hP := processPairs_canon dir c l1 l2 hs1 hs2
  have hC := classicalMerge_canon dir c (l1.length + l2.length) l1 l2 le_rfl hs1 hs2
  constructor
  · rcases hp : processPairs dir c l1 l2 with e | o1 <;>
      rcases hc : classicalMerge dir c l1 l2 with e' | o2 <;>
      simp only [hp, hc]
    · -- processPairs aborted but classicalMerge succeeded
      obtain ⟨_, hok⟩ := hC.1 o2 hc
      obtain ⟨out, hout⟩ := hP.2.2 hok
      rw [hout] at hp
      simp at hp
    · -- processPairs succeeded but classicalMerge aborted
      obtain ⟨_, hok⟩ := hP.1 o1 hp
      obtain ⟨out, hout⟩ := hC.2.2 hok
      rw [hout] at hc
      simp at hc
    · obtain ⟨⟨hev1, hpu1, hop1, hpa1⟩, _⟩ := hP.1 o1 hp
      obtain ⟨⟨hev2, hpu2, hop2, hpa2⟩, _⟩ := hC.1 o2 hc
      exact ⟨hev1.trans hev2.symm, hpu1.trans hpu2.symm,
        hop1.trans hop2.symm, hpa1.trans hpa2.symm⟩
  · intro out hout nm
    obtain ⟨⟨hev, hpu, hop, hpa⟩, hok⟩ := hP.1 out hout
    refine ⟨?_, ?_, ?_⟩
    · rintro ⟨e, he, hen⟩ hno2
      have hunm : matchedIn e l2 = false := by
        rw [matchedIn_eq_false]
        intro x hx hkx
        exact hno2 ⟨x, hx, by rw [← (cmpKey_eq_iff.mp hkx).2, hen]⟩
      refine ⟨?_, ?_, ?_⟩
      · rw [hev.count_eq, count_inDir1_canonEvents]
        refine count_name_filter_one hn1 he hen (by rw [hunm]; rfl) ?_
        intro x hx hxn
        have hux : matchedIn x l2 = false := by
          rw [matchedIn_eq_false]
          intro y hy hky
          exact hno2 ⟨y, hy, by rw [← (cmpKey_eq_iff.mp hky).2, hxn]⟩
        rw [hux]
        rfl
      · rw [hev.count_eq, count_inDir2_canonEvents]
        exact count_name_filter_zero (fun x hx hxn => absurd ⟨x, hx, hxn⟩ hno2)
      · intro hmem
        obtain ⟨p, hp', hn⟩ := mem_canonPaired.mp (hpa.mem_iff.mp hmem)
        obtain ⟨_, hp2, hkp⟩ := mem_canonPairs.mp hp'
        exact hno2 ⟨p.2, hp2, by rw [← (cmpKey_eq_iff.mp hkp).2, hn]⟩
    · rintro hno1 ⟨e, he, hen⟩
      refine ⟨?_, ?_, ?_⟩
      · rw [hev.count_eq, count_inDir2_canonEvents]
        have hunm : matchedIn e l1 = false := by
          rw [matchedIn_eq_false]
          intro x hx hkx
          exact hno1 ⟨x, hx, by rw [← (cmpKey_eq_iff.mp hkx).2, hen]⟩
        refine count_name_filter_one hn2 he hen (by rw [hunm]; rfl) ?_
        intro x hx hxn
        have hux : matchedIn x l1 = false := by
          rw [matchedIn_eq_false]
          intro y hy hky
          exact hno1 ⟨y, hy, by rw [← (cmpKey_eq_iff.mp hky).2, hxn]⟩
        rw [hux]
        rfl
      · rw [hev.count_eq, count_inDir1_canonEvents]
        exact count_name_filter_zero (fun x hx hxn => absurd ⟨x, hx, hxn⟩ hno1)
      · intro hmem
        obtain ⟨p, hp', hn⟩ := mem_canonPaired.mp (hpa.mem_iff.mp hmem)
        obtain ⟨hp1, _, _⟩ := mem_canonPairs.mp hp'
        exact hno1 ⟨p.1, hp1, hn⟩
    · rintro ⟨e1, he1, e2, he2, hen, hkey⟩
      have he2n : e2.name = nm := by
        rw [← (cmpKey_eq_iff.mp hkey).2, hen]
      refine ⟨?_, ?_, ?_⟩
      · rw [hpa.count_eq]
        exact count_canonPaired_one hn2 he2 hen hkey hn1 he1
      · rw [hev.count_eq, count_inDir1_canonEvents]
        refine count_name_filter_zero ?_
        intro x hx hxn
        have hxe : x = e1 := NamesNodup_eq_of_name hn1 hx he1 (by rw [hxn, hen])
        subst hxe
        have : matchedIn x l2 = true := matchedIn_eq_true.mpr ⟨e2, he2, hkey⟩
        rw [this]
        rfl
      · rw [hev.count_eq, count_inDir2_canonEvents]
        refine count_name_filter_zero ?_
        intro y hy hyn
        have hye : y = e2 := NamesNodup_eq_of_name hn2 hy he2 (by rw [hyn, he2n])
        subst hye
        have : matchedIn y l1 = true :=
          matchedIn_eq_true.mpr ⟨e1, he1, cmpKey_eq_symm hkey⟩
        rw [this]
        rfl

theorem processPairs_matches_classicalMerge_witness :
    (match processPairs [] true [⟨1, .regular, none, [], 1, 0, [5]⟩]
        [⟨2, .regular, none, [], 1, 0, [5]⟩],
      classicalMerge [] true [⟨1, .regular, none, [], 1, 0, [5]⟩]
        [⟨2, .regular, none, [], 1, 0, [5]⟩] with
     | .ok o1, .ok o2 =>
        o1.events.Perm o2.events ∧ o1.pushes.Perm o2.pushes ∧
          o1.opens.Perm o2.opens ∧ o1.paired.Perm o2.paired
     | .error _, .error _ => True
     | _, _ => False) ∧
    (∀ out, processPairs [] true [⟨1, .regular, none, [], 1, 0, [5]⟩]
        [⟨2, .regular, none, [], 1, 0, [5]⟩] = .ok out → ∀ nm,
      ((∃ e ∈ [(⟨1, .regular, none, [], 1, 0, [5]⟩ : FileT)], e.name = nm) →
        (¬ ∃ e ∈ [(⟨2, .regular, none, [], 1, 0, [5]⟩ : FileT)], e.name = nm) →
        out.events.count (.InDir1Only [] nm) = 1 ∧
        out.events.count (.InDir2Only [] nm) = 0 ∧ nm ∉ out.paired) ∧
      ((¬ ∃ e ∈ [(⟨1, .regular, none, [], 1, 0, [5]⟩ : FileT)], e.name = nm) →
        (∃ e ∈ [(⟨2, .regular, none, [], 1, 0, [5]⟩ : FileT)], e.name = nm) →
        out.events.count (.InDir2Only [] nm) = 1 ∧
        out.events.count (.InDir1Only [] nm) = 0 ∧ nm ∉ out.paired) ∧
      ((∃ e1 ∈ [(⟨1, .regular, none, [], 1, 0, [5]⟩ : FileT)],
          ∃ e2 ∈ [(⟨2, .regular, none, [], 1, 0, [5]⟩ : FileT)],
          e1.name = nm ∧ cmpKey e1 e2 = .eq) →
        out.paired.count nm = 1 ∧
        out.events.count (.InDir1Only [] nm) = 0 ∧
        out.events.count (.InDir2Only [] nm) = 0)) :=
  processPairs_matches_classicalMerge [] true
    [⟨1, .regular, none, [], 1, 0, [5]⟩] [⟨2, .regular, none, [], 1, 0, [5]⟩]
    (by decide) (by decide) (by decide) (by decide)

theorem procRev_no_assertFail (dir : List Nat) (c : Bool) :
    ∀ n r1 r2, r1.length + r2.length ≤ n →
      procRev dir c r1 r2 ≠ .error .assertFail := by
  intro n
  induction n with
  | zero =>
    intro r1 r2 hn
    have h1 : r1 = [] := List.length_eq_zero.mp (by omega)
    have h2 : r2 = [] := List.length_eq_zero.mp (by omega)
    subst h1; subst h2
    rw [procRev]
    simp
  | succ m ih =>
    intro r1 r2 hn
    match r1, r2 with
    | [], r2 => rw [procRev]; simp
    | e1 :: t1, [] => rw [procRev]; simp
    | e1 :: t1, e2 :: t2 =>
      rw [procRev]
      rcases hk : cmpKey e1 e2 with _ | _ | _ <;> simp only [hk]
      · rcases hrec : procRev dir c (e1 :: t1) t2 with e | out
        · intro h
          injection h with h'
          subst h'
          exact ih (e1 :: t1) t2 (by simp only [List.length_cons] at hn ⊢; omega) hrec
        · simp
      · rcases hdisp : dispatch dir c e1 e2 with e | st
        · obtain ⟨_, _, he⟩ := dispatch_error_shape hk hdisp
          subst he
          simp
        · rcases hrec : procRev dir c t1 t2 with e | out
          · intro h
            injection h with h'
            subst h'
            exact ih t1 t2 (by simp only [List.length_cons] at hn ⊢; omega) hrec
          · simp
      · rcases hrec : procRev dir c t1 (e2 :: t2) with e | out
        · intro h
          injection h with h'
          subst h'
          exact ih t1 (e2 :: t2) (by simp only [List.length_cons] at hn ⊢; omega) hrec
        · simp

/-- C10: the `assert_eq!(ft1, ft2)` in the `Equal` branch of the merge never
fails: for every pair of listings (sorted or not), `processPairs` never
aborts with `assertFail`, because equality of the sort keys
`(file_type_order, name)` of the two peeked last elements already forces the
two popped elements to have equal `file_type_order`. -/
theorem assert_never_fails (dir : List Nat) (c : Bool) (l1 l2 : List FileT) :
    processPairs dir c l1 l2 ≠ .error .assertFail := by
  rw [processPairs_eq_procRev dir c (l1.length + l2.length) l1 l2 le_rfl]
  exact procRev_no_assertFail dir c (l1.reverse.length + l2.reverse.length)
    l1.reverse l2.reverse le_rfl

/-- C8: whenever both sides of a sorted pair of listings contain a
same-named entry of type order 3 (neither directory, symlink nor regular
file), the merge aborts, and the abort is the `bail!` whose payload names
the relative path `dir/name` of an offending equal-key pair together with
the offending type order 3. -/
theorem unimplemented_type_aborts (dir : List Nat) (c : Bool)
    (l1 l2 : List FileT) (hs1 : SortedAsc l1) (hs2 : SortedAsc l2)
    (e1 e2 : FileT) (he1 : e1 ∈ l1) (he2 : e2 ∈ l2)
    (hname : e1.name = e2.name)
    (hf1 : file_type_order e1.ftype = 3) (hf2 : file_type_order e2.ftype = 3) :
    ∃ f1 f2, f1 ∈ l1 ∧ f2 ∈ l2 ∧ cmpKey f1 f2 = .eq ∧
      file_type_order f1.ftype = 3 ∧ file_type_order f2.ftype = 3 ∧
      processPairs dir c l1 l2 = .error (.unimplemented (dir ++ [f1.name]) 3) := by
  have hP := processPairs_canon dir c l1 l2 hs1 hs2
  have hkey : cmpKey e1 e2 = .eq := cmpKey_eq_iff.mpr ⟨by omega, hname⟩
  rcases hres : processPairs dir c l1 l2 with e | out
  · obtain ⟨f1, f2, hm1, hm2, hk, ho1, ho2, he⟩ := hP.2.1 e hres
    subst he
    exact ⟨f1, f2, hm1, hm2, hk, ho1, ho2, rfl⟩
  · exfalso
    have hok := (hP.1 out hres).2
    exact hok (e1, e2) (mem_canonPairs.mpr ⟨he1, he2, hkey⟩) hf1

theorem unimplemented_type_aborts_witness :
    ∃ f1 f2, f1 ∈ [(⟨1, .other 0, none, [], 0, 0, []⟩ : FileT)] ∧
      f2 ∈ [(⟨1, .other 4, none, [], 0, 0, []⟩ : FileT)] ∧
      cmpKey f1 f2 = .eq ∧
      file_type_order f1.ftype = 3 ∧ file_type_order f2.ftype = 3 ∧
      processPairs [9] false [⟨1, .other 0, none, [], 0, 0, []⟩]
          [⟨1, .other 4, none, [], 0, 0, []⟩]
        = .error (.unimplemented ([9] ++ [f1.name]) 3) :=
  unimplemented_type_aborts [9] false
    [⟨1, .other 0, none, [], 0, 0, []⟩] [⟨1, .other 4, none, [], 0, 0, []⟩]
    (by decide) (by decide)
    ⟨1, .other 0, none, [], 0, 0, []⟩ ⟨1, .other 4, none, [], 0, 0, []⟩
    (by decide) (by decide) (by decide) (by decide) (by decide)

/-- C5: under the default (no-follow) policy, dispatching two same-named
symlinks emits `Different` exactly when the two `read_link` targets differ
byte-for-byte as unresolved textual paths, and emits nothing when the
textual targets coincide — independently of the contents the targets
resolve to (the result does not look at `content` at all). -/
theorem symlink_compare_textual (dir : List Nat) (c : Bool) (e1 e2 : FileT)
    (h1 : e1.ftype = .symlink) (h2 : e2.ftype = .symlink) :
    dispatch dir c e1 e2 =
      .ok ⟨if e1.target = e2.target then [] else [.Different dir e1.name],
           [], []⟩ := by
  by_cases ht : e1.target = e2.target <;>
    simp [dispatch, h1, h2, file_type_order, ht]

theorem symlink_compare_textual_witness :
    dispatch [] false ⟨3, .symlink, none, [10], 0, 0, [1]⟩
        ⟨3, .symlink, none, [11], 0, 0, [2]⟩ =
      .ok ⟨if ([10] : List Nat) = [11] then []
           else [.Different [] 3], [], []⟩ :=
  symlink_compare_textual [] false
    ⟨3, .symlink, none, [10], 0, 0, [1]⟩ ⟨3, .symlink, none, [11], 0, 0, [2]⟩
    rfl rfl

/-- C4: for a matched pair of same-named regular files whose metadata
lengths differ, a successful merge emits exactly one `Different` event for
that name, and neither file is opened — the name never enters the `opens`
trace, because the length prefilter decides before any `File::open`. -/
theorem len_prefilter_different_no_open (dir : List Nat) (c : Bool)
    (l1 l2 : List FileT) (hs1 : SortedAsc l1) (hs2 : SortedAsc l2)
    (hn1 : NamesNodup l1) (hn2 : NamesNodup l2)
    {e1 e2 : FileT} (he1 : e1 ∈ l1) (he2 : e2 ∈ l2)
    (hr1 : e1.ftype = .regular) (hr2 : e2.ftype = .regular)
    (hname : e1.name = e2.name) (hlen : e1.len ≠ e2.len)
    {out : POut} (hout : processPairs dir c l1 l2 = .ok out) :
    out.events.count (.Different dir e1.name) = 1 ∧ e1.name ∉ out.opens := by
  have hP := processPairs_canon dir c l1 l2 hs1 hs2
  obtain ⟨⟨hev, hpu, hop, hpa⟩, hok⟩ := hP.1 out hout
  have hf1 : file_type_order e1.ftype = 2 := file_type_order_eq_two.mpr hr1
  have hf2 : file_type_order e2.ftype = 2 := file_type_order_eq_two.mpr hr2
  have hkey : cmpKey e1 e2 = .eq := cmpKey_eq_iff.mpr ⟨by omega, hname⟩
  constructor
  · rw [hev.count_eq, count_diff_canonEvents]
    refine countP_canonPairs_one hn2 _ ?_ he2 rfl hkey ?_ hn1 he1
    · intro p hqp
      rw [decide_eq_true_eq] at hqp
      rcases pairStep_events_shape p _ hqp with h | h
      · injection h with hd hn
        exact hn.symm
      · simp at h
    · rw [decide_eq_true_eq,
        show pairStep dir c (e1, e2) = _ from
          pairStep_of_ok (dispatch_ford2_diff hf1 hf2
            (sameContent_false_of_len_ne hlen))]
      simp
  · intro hmem
    obtain ⟨p, hp', hor, hleneq⟩ := mem_opens_canonOpens (hop.mem_iff.mp hmem)
    obtain ⟨hp1, hp2, hkp⟩ := mem_canonPairs.mp hp'
    have hpn : p.1.name = p.2.name := (cmpKey_eq_iff.mp hkp).2
    have hq1 : p.1 = e1 := by
      rcases hor with h | h
      · exact NamesNodup_eq_of_name hn1 hp1 he1 h
      · exact NamesNodup_eq_of_name hn1 hp1 he1 (by rw [hpn, h])
    have hq2 : p.2 = e2 := by
      refine NamesNodup_eq_of_name hn2 hp2 he2 ?_
      rw [← hpn, hq1, hname]
    rw [hq1, hq2] at hleneq
    exact hlen hleneq

theorem len_prefilter_different_no_open_witness :
    (processPairs [] false [⟨4, .regular, none, [], 1, 0, [1]⟩]
        [⟨4, .regular, none, [], 2, 0, [1, 1]⟩]
      = .ok ⟨[.Different [] 4], [], [], [4]⟩) ∧
    ∀ out, processPairs [] false [⟨4, .regular, none, [], 1, 0, [1]⟩]
        [⟨4, .regular, none, [], 2, 0, [1, 1]⟩] = .ok out →
      out.events.count (.Different [] 4) = 1 ∧ (4 : Nat) ∉ out.opens := by
  constructor
  · simp [processPairs, dispatch, cmpKey, ncmp, file_type_order, sameContent,
      opensOf]
  · intro out hout
    exact len_prefilter_different_no_open [] false
      [⟨4, .regular, none, [], 1, 0, [1]⟩] [⟨4, .regular, none, [], 2, 0, [1, 1]⟩]
      (by decide) (by decide) (by decide) (by decide)
      (List.mem_singleton.mpr rfl) (List.mem_singleton.mpr rfl)
      rfl rfl rfl (by decide) hout

/-- C6: under the default policy, when one side holds a symlink and the
other a same-named non-symlink (directory or regular file), a successful
merge emits exactly one `InDir1Only` and one `InDir2Only` event for that
name and never a `Different` event: the type orders differ, so the two
entries are never paired. -/
theorem symlink_vs_nonsymlink_one_sided (dir : List Nat) (c : Bool)
    (l1 l2 : List FileT) (hs1 : SortedAsc l1) (hs2 : SortedAsc l2)
    (hn1 : NamesNodup l1) (hn2 : NamesNodup l2)
    {e1 e2 : FileT} (he1 : e1 ∈ l1) (he2 : e2 ∈ l2)
    (hname : e1.name = e2.name)
    (htypes : (e1.ftype = .symlink ∧ (e2.ftype = .dir ∨ e2.ftype = .regular)) ∨
      ((e1.ftype = .dir ∨ e1.ftype = .regular) ∧ e2.ftype = .symlink))
    {out : POut} (hout : processPairs dir c l1 l2 = .ok out) :
    out.events.count (.InDir1Only dir e1.name) = 1 ∧
    out.events.count (.InDir2Only dir e1.name) = 1 ∧
    Diff.Different dir e1.name ∉ out.events := by
  have hP := processPairs_canon dir c l1 l2 hs1 hs2
  obtain ⟨⟨hev, hpu, hop, hpa⟩, hok⟩ := hP.1 out hout
  have hfne : file_type_order e1.ftype ≠ file_type_order e2.ftype := by
    rcases htypes with ⟨ha, hb | hb⟩ | ⟨ha | ha, hb⟩ <;>
      rw [ha, hb] <;> simp [file_type_order]
  have hm1 : matchedIn e1 l2 = false := by
    rw [matchedIn_eq_false]
    intro x hx hkx
    obtain ⟨hford, hn⟩ := cmpKey_eq_iff.mp hkx
    have hxe : x = e2 := NamesNodup_eq_of_name hn2 hx he2 (by rw [← hn, hname])
    subst hxe
    exact hfne hford
  have hm2 : matchedIn e2 l1 = false := by
    rw [matchedIn_eq_false]
    intro y hy hky
    obtain ⟨hford, hn⟩ := cmpKey_eq_iff.mp hky
    have hye : y = e1 := NamesNodup_eq_of_name hn1 hy he1 (by rw [← hn, ← hname])
    subst hye
    exact hfne hford.symm
  refine ⟨?_, ?_, ?_⟩
  · rw [hev.count_eq, count_inDir1_canonEvents]
    refine count_name_filter_one hn1 he1 rfl (by rw [hm1]; rfl) ?_
    intro x hx hxn
    have hxe : x = e1 := NamesNodup_eq_of_name hn1 hx he1 hxn
    subst hxe
    rw [hm1]
    rfl
  · rw [hev.count_eq, count_inDir2_canonEvents]
    refine count_name_filter_one hn2 he2 hname.symm (by rw [hm2]; rfl) ?_
    intro x hx hxn
    have hxe : x = e2 := NamesNodup_eq_of_name hn2 hx he2 (by rw [hxn, hname])
    subst hxe
    rw [hm2]
    rfl
  · intro hmem
    obtain ⟨p, hp', hn⟩ := mem_different_canonEvents (hev.mem_iff.mp hmem)
    obtain ⟨hp1, hp2, hkp⟩ := mem_canonPairs.mp hp'
    have hq1 : p.1 = e1 := NamesNodup_eq_of_name hn1 hp1 he1 hn
    have hq2 : p.2 = e2 := by
      refine NamesNodup_eq_of_name hn2 hp2 he2 ?_
      rw [← (cmpKey_eq_iff.mp hkp).2, hq1, hname]
    rw [hq1, hq2] at hkp
    exact hfne (cmpKey_eq_iff.mp hkp).1

theorem symlink_vs_nonsymlink_one_sided_witness :
    (processPairs [] false [⟨6, .symlink, none, [3], 0, 0, []⟩]
        [⟨6, .regular, none, [], 1, 0, [9]⟩]
      = .ok ⟨[.InDir2Only [] 6, .InDir1Only [] 6], [], [], []⟩) ∧
    ∀ out, processPairs [] false [⟨6, .symlink, none, [3], 0, 0, []⟩]
        [⟨6, .regular, none, [], 1, 0, [9]⟩] = .ok out →
      out.events.count (.InDir1Only [] 6) = 1 ∧
      out.events.count (.InDir2Only [] 6) = 1 ∧
      Diff.Different [] 6 ∉ out.events := by
  constructor
  · simp [processPairs, cmpKey, ncmp, file_type_order]
  · intro out hout
    exact symlink_vs_nonsymlink_one_sided [] false
      [⟨6, .symlink, none, [3], 0, 0, []⟩] [⟨6, .regular, none, [], 1, 0, [9]⟩]
      (by decide) (by decide) (by decide) (by decide)
      (List.mem_singleton.mpr rfl) (List.mem_singleton.mpr rfl)
      rfl (Or.inl ⟨rfl, Or.inr rfl⟩) hout

/-- C2: the buffered prefix-comparison loop on two equal-length byte
sequences terminates within `length + 1` rounds and returns exactly the
byte-equality of the two sequences, for every pair of fill-size schedules
(the left and right reader fills need not be aligned, only non-empty while
bytes remain). -/
theorem buffered_prefix_loop_correct (f1 f2 : Nat → Nat)
    (hf1 : ∀ j, 1 ≤ f1 j) (hf2 : ∀ j, 1 ≤ f2 j)
    (fuel k : Nat) (c1 c2 : List Nat) (hlen : c1.length = c2.length)
    (hfuel : c1.length < fuel) :
    cmpLoop f1 f2 fuel k c1 c2 = some (c1 == c2) :=
  cmpLoop_correct f1 f2 hf1 hf2 fuel k c1 c2 hlen hfuel

theorem buffered_prefix_loop_correct_witness :
    cmpLoop (fun _ => 1) (fun _ => 2) 4 0 [1, 2, 3] [1, 2, 4]
      = some ([1, 2, 3] == [1, 2, 4]) :=
  buffered_prefix_loop_correct (fun _ => 1) (fun _ => 2)
    (fun _ => Nat.le_refl 1) (fun _ => one_le_two) 4 0 [1, 2, 3] [1, 2, 4]
    rfl (by decide)

/-! ## Additivity of the mtime check -/

/-- Whether a diff event is the mtime-only event. -/
def isMTime : Diff → Bool
  | .SameButDifferentMTime _ _ => true
  | _ => false

theorem filter_not_mtime_map1 (dir : List Nat) (l : List FileT) :
    (l.map (fun e => Diff.InDir1Only dir e.name)).filter (fun d => !isMTime d)
      = l.map (fun e => Diff.InDir1Only dir e.name) := by
  rw [List.filter_eq_self]
  intro d hd
  obtain ⟨e, _, he⟩ := List.mem_map.mp hd
  subst he
  simp [isMTime]

theorem filter_not_mtime_map2 (dir : List Nat) (l : List FileT) :
    (l.map (fun e => Diff.InDir2Only dir e.name)).filter (fun d => !isMTime d)
      = l.map (fun e => Diff.InDir2Only dir e.name) := by
  rw [List.filter_eq_self]
  intro d hd
  obtain ⟨e, _, he⟩ := List.mem_map.mp hd
  subst he
  simp [isMTime]

theorem dispatch_mtime_additive (dir : List Nat) (a b : FileT) :
    match dispatch dir true a b, dispatch dir false a b with
    | .ok s1, .ok s2 =>
        s1.events.filter (fun d => !isMTime d) = s2.events ∧
        s2.events.filter (fun d => !isMTime d) = s2.events ∧
        s1.pushes = s2.pushes ∧ s1.opens = s2.opens
    | .error e1, .error e2 => e1 = e2
    | _, _ => False := by
  unfold dispatch
  split_ifs <;> simp_all [isMTime]

theorem procRev_mtime_additive (dir : List Nat) :
    ∀ n r1 r2, r1.length + r2.length ≤ n →
      match procRev dir true r1 r2, procRev dir false r1 r2 with
      | .ok o1, .ok o2 =>
          o1.events.filter (fun d => !isMTime d) = o2.events ∧
          o2.events.filter (fun d => !isMTime d) = o2.events ∧
          o1.pushes = o2.pushes ∧ o1.opens = o2.opens ∧ o1.paired = o2.paired
      | .error e1, .error e2 => e1 = e2
      | _, _ => False := by
  intro n
  induction n with
  | zero =>
    intro r1 r2 hn
    have h1 : r1 = [] := List.length_eq_zero.mp (by omega)
    subst h1
    have hres : ∀ c, procRev dir c [] r2 =
        .ok ⟨r2.reverse.map (fun e => .InDir2Only dir e.name), [], [], []⟩ :=
      fun c => by rw [procRev]
    simp only [hres]
    refine ⟨filter_not_mtime_map2 dir r2.reverse,
      filter_not_mtime_map2 dir r2.reverse, ?_, ?_, ?_⟩ <;> trivial
  | succ m ih =>
    intro r1 r2 hn
    match r1, r2 with
    | [], r2 =>
      have hres : ∀ c, procRev dir c [] r2 =
          .ok ⟨r2.reverse.map (fun e => .InDir2Only dir e.name), [], [], []⟩ :=
        fun c => by rw [procRev]
      simp only [hres]
      refine ⟨filter_not_mtime_map2 dir r2.reverse,
        filter_not_mtime_map2 dir r2.reverse, ?_, ?_, ?_⟩ <;> trivial
    | e1 :: t1, [] =>
      have hres : ∀ c, procRev dir c (e1 :: t1) [] =
          .ok ⟨(e1 :: t1).reverse.map (fun e => .InDir1Only dir e.name),
               [], [], []⟩ :=
        fun c => by rw [procRev]
      simp only [hres]
      refine ⟨filter_not_mtime_map1 dir (e1 :: t1).reverse,
        filter_not_mtime_map1 dir (e1 :: t1).reverse, ?_, ?_, ?_⟩ <;> trivial
    | e1 :: t1, e2 :: t2 =>
      have hlen' : t1.length + t2.length + 2 ≤ m + 1 := by
        simp only [List.length_cons] at hn
        omega
      rcases hk : cmpKey e1 e2 with _ | _ | _
      · have ihs := ih (e1 :: t1) t2 (by simp only [List.length_cons]; omega)
        rcases hr1 : procRev dir true (e1 :: t1) t2 with e | o1 <;>
          rcases hr0 : procRev dir false (e1 :: t1) t2 with e' | o0 <;>
          simp only [hr1, hr0] at ihs
        · have hres1 : procRev dir true (e1 :: t1) (e2 :: t2) = .error e := by
            rw [procRev]; simp only [hk, hr1]
          have hres0 : procRev dir false (e1 :: t1) (e2 :: t2) = .error e' := by
            rw [procRev]; simp only [hk, hr0]
          simp only [hres1, hres0]
          exact ihs
        · obtain ⟨hfe, hfs, hpu, hop, hpa⟩ := ihs
          have hres1 : procRev dir true (e1 :: t1) (e2 :: t2) =
              .ok { o1 with events := .InDir2Only dir e2.name :: o1.events } := by
            rw [procRev]; simp only [hk, hr1]
          have hres0 : procRev dir false (e1 :: t1) (e2 :: t2) =
              .ok { o0 with events := .InDir2Only dir e2.name :: o0.events } := by
            rw [procRev]; simp only [hk, hr0]
          simp only [hres1, hres0]
          refine ⟨?_, ?_, hpu, hop, hpa⟩
          · rw [List.filter_cons_of_pos (by simp [isMTime]), hfe]
          · rw [List.filter_cons_of_pos (by simp [isMTime]), hfs]
      · have hda := dispatch_mtime_additive dir e1 e2
        rcases hd1 : dispatch dir true e1 e2 with e | s1 <;>
          rcases hd0 : dispatch dir false e1 e2 with e' | s0 <;>
          simp only [hd1, hd0] at hda
        · have hres1 : procRev dir true (e1 :: t1) (e2 :: t2) = .error e := by
            rw [procRev]; simp only [hk, hd1]
          have hres0 : procRev dir false (e1 :: t1) (e2 :: t2) = .error e' := by
            rw [procRev]; simp only [hk, hd0]
          simp only [hres1, hres0]
          exact hda
        · obtain ⟨hse, hss, hsp, hso⟩ := hda
          have ihs := ih t1 t2 (by simp only [List.length_cons] at hn ⊢; omega)
          rcases hr1 : procRev dir true t1 t2 with e | o1 <;>
            rcases hr0 : procRev dir false t1 t2 with e' | o0 <;>
            simp only [hr1, hr0] at ihs
          · have hres1 : procRev dir true (e1 :: t1) (e2 :: t2) = .error e := by
              rw [procRev]; simp only [hk, hd1, hr1]
            have hres0 : procRev dir false (e1 :: t1) (e2 :: t2) = .error e' := by
              rw [procRev]; simp only [hk, hd0, hr0]
            simp only [hres1, hres0]
            exact ihs
          · obtain ⟨hfe, hfs, hpu, hop, hpa⟩ := ihs
            have hres1 : procRev dir true (e1 :: t1) (e2 :: t2) =
                .ok ⟨s1.events ++ o1.events, s1.pushes ++ o1.pushes,
                     s1.opens ++ o1.opens, e1.name :: o1.paired⟩ := by
              rw [procRev]; simp only [hk, hd1, hr1]
            have hres0 : procRev dir false (e1 :: t1) (e2 :: t2) =
                .ok ⟨s0.events ++ o0.events, s0.pushes ++ o0.pushes,
                     s0.opens ++ o0.opens, e1.name :: o0.paired⟩ := by
              rw [procRev]; simp only [hk, hd0, hr0]
            simp only [hres1, hres0]
            refine ⟨?_, ?_, by rw [hsp, hpu], by rw [hso, hop], by rw [hpa]⟩
            · rw [List.filter_append, hse, hfe]
            · rw [List.filter_append, hss, hfs]
      · have ihs := ih t1 (e2 :: t2) (by simp only [List.length_cons] at hn ⊢; omega)
        rcases hr1 : procRev dir true t1 (e2 :: t2) with e | o1 <;>
          rcases hr0 : procRev dir false t1 (e2 :: t2) with e' | o0 <;>
          simp only [hr1, hr0] at ihs
        · have hres1 : procRev dir true (e1 :: t1) (e2 :: t2) = .error e := by
            rw [procRev]; simp only [hk, hr1]
          have hres0 : procRev dir false (e1 :: t1) (e2 :: t2) = .error e' := by
            rw [procRev]; simp only [hk, hr0]
          simp only [hres1, hres0]
          exact ihs
        · obtain ⟨hfe, hfs, hpu, hop, hpa⟩ := ihs
          have hres1 : procRev dir true (e1 :: t1) (e2 :: t2) =
              .ok { o1 with events := .InDir1Only dir e1.name :: o1.events } := by
            rw [procRev]; simp only [hk, hr1]
          have hres0 : procRev dir false (e1 :: t1) (e2 :: t2) =
              .ok { o0 with events := .InDir1Only dir e1.name :: o0.events } := by
            rw [procRev]; simp only [hk, hr0]
          simp only [hres1, hres0]
          refine ⟨?_, ?_, hpu, hop, hpa⟩
          · rw [List.filter_cons_of_pos (by simp [isMTime]), hfe]
          · rw [List.filter_cons_of_pos (by simp [isMTime]), hfs]

theorem sameContent_wf {a b : FileT} (h1 : a.len = a.content.length)
    (h2 : b.len = b.content.length) :
    sameContent a b = (a.content == b.content) := by
  unfold sameContent
  by_cases hlen : a.len = b.len
  · rw [if_neg (not_not_intro hlen)]
    unfold contentEq
    rw [cmpLoop_correct _ _ (fun _ => by decide) (fun _ => by decide)
      (a.content.length + 1) 0 a.content b.content (by omega) (by omega)]
    rfl
  · rw [if_pos hlen]
    have hne : a.content ≠ b.content := by
      intro hcc
      apply hlen
      rw [h1, h2, hcc]
    rw [beq_eq_false_iff_ne.mpr hne]

/-- C7: enabling `check_mtime` is additive.  On any two sorted listings of
well-formed regular files (`len` agrees with the byte content's length),
the runs with the flag on and off abort together with the same error; on
success, filtering the mtime events out of the flag-on run yields exactly
the flag-off run's events (which themselves contain no mtime event), with
identical recursion pushes, file opens, and dispatched pairs.  Moreover,
with the flag on, a `SameButDifferentMTime` event is emitted for a name
iff both sides hold a regular file of that name with byte-equal contents
and different modification times. -/
theorem check_mtime_additive (dir : List Nat) (l1 l2 : List FileT)
    (hs1 : SortedAsc l1) (hs2 : SortedAsc l2)
    (hw1 : ∀ e ∈ l1, e.len = e.content.length)
    (hw2 : ∀ e ∈ l2, e.len = e.content.length) :
    (match processPairs dir true l1 l2, processPairs dir false l1 l2 with
     | .ok o1, .ok o0 =>
         o1.events.filter (fun d => !isMTime d) = o0.events ∧
         o0.events.filter (fun d => !isMTime d) = o0.events ∧
         o1.pushes = o0.pushes ∧ o1.opens = o0.opens ∧ o1.paired = o0.paired
     | .error e1, .error e0 => e1 = e0
     | _, _ => False) ∧
    (∀ out, processPairs dir true l1 l2 = .ok out →
      ∀ nm, Diff.SameButDifferentMTime dir nm ∈ out.events ↔
        ∃ a ∈ l1, ∃ b ∈ l2, a.name = nm ∧ b.name = nm ∧
          a.ftype = .regular ∧ b.ftype = .regular ∧
          a.content = b.content ∧ a.mtime ≠ b.mtime) := by
  constructor
  · have heq1 := processPairs_eq_procRev dir true (l1.length + l2.length)
      l1 l2 le_rfl
    have heq0 := processPairs_eq_procRev dir false (l1.length + l2.length)
      l1 l2 le_rfl
    have h := procRev_mtime_additive dir
      (l1.reverse.length + l2.reverse.length) l1.reverse l2.reverse le_rfl
    rw [heq1, heq0]
    exact h
  · intro out hout nm
    obtain ⟨⟨hperm, _, _, _⟩, _⟩ :=
      (processPairs_canon dir true l1 l2 hs1 hs2).1 out hout
    rw [hperm.mem_iff, mem_mtime_canonEvents]
    constructor
    · rintro ⟨p, hp, hev⟩
      obtain ⟨ha, hb, hkey⟩ := mem_canonPairs.mp hp
      rcases hds : dispatch dir true p.1 p.2 with e | st
      · rw [show pairStep dir true p = ⟨[], [], []⟩ by
          unfold pairStep; rw [hds]] at hev
        simp at hev
      · rw [show pairStep dir true p = st by
          unfold pairStep; rw [hds]] at hev
        obtain ⟨h2a, h2b, hsc, _, hmt, hnm⟩ := dispatch_mtime_inv hds hev
        obtain ⟨_, hname⟩ := cmpKey_eq_iff.mp hkey
        have hcc : p.1.content = p.2.content := by
          rw [sameContent_wf (hw1 p.1 ha) (hw2 p.2 hb)] at hsc
          exact beq_iff_eq.mp hsc
        exact ⟨p.1, ha, p.2, hb, hname.trans hnm.symm, hnm.symm,
          file_type_order_eq_two.mp h2a, file_type_order_eq_two.mp h2b,
          hcc, hmt⟩
    · rintro ⟨a, ha, b, hb, hna, hnb, hra, hrb, hcc, hmt⟩
      have h2a : file_type_order a.ftype = 2 := by rw [hra]; rfl
      have h2b : file_type_order b.ftype = 2 := by rw [hrb]; rfl
      have hkey : cmpKey a b = .eq :=
        cmpKey_eq_iff.mpr ⟨by rw [h2a, h2b], hna.trans hnb.symm⟩
      have hsc : sameContent a b = true := by
        rw [sameContent_wf (hw1 a ha) (hw2 b hb)]
        exact beq_iff_eq.mpr hcc
      refine ⟨(a, b), mem_canonPairs.mpr ⟨ha, hb, hkey⟩, ?_⟩
      rw [show pairStep dir true (a, b) =
          ⟨[.SameButDifferentMTime dir b.name], [], opensOf a b⟩ by
        unfold pairStep
        rw [dispatch_ford2_mtime h2a h2b hsc rfl hmt]]
      simp [hnb]

theorem check_mtime_additive_witness :
    (match processPairs [] true [⟨7, .regular, none, [], 1, 1, [9]⟩]
             [⟨7, .regular, none, [], 1, 2, [9]⟩],
           processPairs [] false [⟨7, .regular, none, [], 1, 1, [9]⟩]
             [⟨7, .regular, none, [], 1, 2, [9]⟩] with
     | .ok o1, .ok o0 =>
         o1.events.filter (fun d => !isMTime d) = o0.events ∧
         o0.events.filter (fun d => !isMTime d) = o0.events ∧
         o1.pushes = o0.pushes ∧ o1.opens = o0.opens ∧ o1.paired = o0.paired
     | .error e1, .error e0 => e1 = e0
     | _, _ => False) ∧
    (∀ out, processPairs [] true [⟨7, .regular, none, [], 1, 1, [9]⟩]
        [⟨7, .regular, none, [], 1, 2, [9]⟩] = .ok out →
      ∀ nm, Diff.SameButDifferentMTime [] nm ∈ out.events ↔
        ∃ a ∈ [(⟨7, .regular, none, [], 1, 1, [9]⟩ : FileT)],
          ∃ b ∈ [(⟨7, .regular, none, [], 1, 2, [9]⟩ : FileT)],
            a.name = nm ∧ b.name = nm ∧
            a.ftype = .regular ∧ b.ftype = .regular ∧
            a.content = b.content ∧ a.mtime ≠ b.mtime) :=
  check_mtime_additive [] [⟨7, .regular, none, [], 1, 1, [9]⟩]
    [⟨7, .regular, none, [], 1, 2, [9]⟩]
    (by decide) (by decide) (by decide) (by decide)

/-! ## Building a directory listing: `read_dir`, `FileT::new` and `collect`
(`src/main.rs` lines 101–121 and 272–277).

`process_path` builds each listing with
`read_dir(&dir)?.map(|r| r.map(|e| FileT::new(e, follow))).collect::<Result<Vec<_>,_>>()?`:
the two `?` propagate enumeration errors as error returns from the worker,
while `FileT::new` calls `.unwrap()` on `entry.file_type()`, on
`canonicalize(&path)` and on `path.metadata()` — failures there panic the
process instead of returning an error.  A raw entry carries the
filesystem's answers to those three calls plus the data the later
comparison reads. -/

structure RawEntry where
  name : Nat
  ftypeRes : Except Nat FType
  canonRes : Except Nat (List Nat)
  metaRes : Except Nat FType
  target : List Nat
  len : Nat
  mtime : Nat
  content : List Nat

/-- How a listing build can abort: an `Err` propagated with `?` out of the
worker, or a panic from an `.unwrap()` on an `Err`. -/
inductive Abort where
  | errReturn (code : Nat)
  | panic (code : Nat)
deriving DecidableEq

/-- `FileT::new(entry, follow_link)` (`src/main.rs` lines 101–121):
`entry.file_type().unwrap()` panics on a file-type error; under
`follow_link` for a symlink, `canonicalize(&path)...unwrap()` panics on a
canonicalization error and `path.metadata().unwrap().file_type()` panics
on a metadata error, the resolved type and path being cached otherwise. -/
def FileT.new (follow : Bool) (e : RawEntry) : Except Abort FileT :=
  match e.ftypeRes with
  | .error c => .error (.panic c)
  | .ok ft =>
    if follow && decide (ft = FType.symlink) then
      match e.canonRes with
      | .error c => .error (.panic c)
      | .ok p =>
        match e.metaRes with
        | .error c => .error (.panic c)
        | .ok ft2 => .ok ⟨e.name, ft2, some p, e.target, e.len, e.mtime, e.content⟩
    else
      .ok ⟨e.name, ft, none, e.target, e.len, e.mtime, e.content⟩

/-- The `collect::<Result<Vec<_>, _>>()?` over
`read_dir(..).map(|r| r.map(|e| FileT::new(e, follow)))`: entries are
consumed in order; an `Err` entry short-circuits into an error return,
and `FileT::new` aborts (by panic) before any later entry is looked at. -/
def collectEntries (follow : Bool) :
    List (Except Nat RawEntry) → Except Abort (List FileT)
  | [] => .ok []
  | .error c :: _ => .error (.errReturn c)
  | .ok e :: rest =>
    match FileT.new follow e with
    | .error a => .error a
    | .ok f =>
      match collectEntries follow rest with
      | .error a => .error a
      | .ok fs => .ok (f :: fs)

/-- `read_dir(&dir)?` and the collect: an error opening the directory is
an error return; otherwise the entries are collected. -/
def buildListing (follow : Bool)
    (rd : Except Nat (List (Except Nat RawEntry))) :
    Except Abort (List FileT) :=
  match rd with
  | .error c => .error (.errReturn c)
  | .ok rs => collectEntries follow rs

/-- The abort a single raw entry produces, if any. -/
def entryAbort (follow : Bool) : Except Nat RawEntry → Option Abort
  | .error c => some (.errReturn c)
  | .ok e =>
    match FileT.new follow e with
    | .error a => some a
    | .ok _ => none

/-- The abort of the first failing entry of a listing, if any. -/
def firstAbort (follow : Bool) : List (Except Nat RawEntry) → Option Abort
  | [] => none
  | r :: rest =>
    match entryAbort follow r with
    | some a => some a
    | none => firstAbort follow rest

/-- The name a raw entry carries (`0` for an `Err` entry). -/
def rawName : Except Nat RawEntry → Nat
  | .error _ => 0
  | .ok e => e.name

/-- Whether a listing build ended in an error return (a worker `Err`),
as opposed to succeeding or panicking. -/
def isErrReturn : Except Abort (List FileT) → Bool
  | .error (.errReturn _) => true
  | _ => false

theorem FileT.new_name {follow : Bool} {e : RawEntry} {f : FileT}
    (h : FileT.new follow e = .ok f) : f.name = e.name := by
  unfold FileT.new at h
  split at h
  · cases h
  · split at h
    · split at h
      · cases h
      · split at h
        · cases h
        · cases h; rfl
    · cases h; rfl

theorem collectEntries_spec (follow : Bool) :
    ∀ rs : List (Except Nat RawEntry),
      match firstAbort follow rs with
      | some a => collectEntries follow rs = .error a
      | none => ∃ fs, collectEntries follow rs = .ok fs ∧
          fs.map FileT.name = rs.map rawName := by
  intro rs
  induction rs with
  | nil => exact ⟨[], rfl, rfl⟩
  | cons r rest ih =>
    rcases r with c | e
    · simp only [firstAbort, entryAbort]
      rfl
    · rcases hn : FileT.new follow e with a | f
      · simp only [firstAbort, entryAbort, hn]
        simp only [collectEntries, hn]
      · simp only [firstAbort, entryAbort, hn]
        rcases hfa : firstAbort follow rest with _ | a
        · rw [hfa] at ih
          obtain ⟨fs, hfs, hmap⟩ := ih
          exact ⟨f :: fs, by simp only [collectEntries, hn, hfs], by
            simp only [List.map_cons, hmap, rawName, FileT.new_name hn]⟩
        · rw [hfa] at ih
          simp only [collectEntries, hn, ih]

/-- C3 counterexample: under follow mode, a canonicalization error while
building the listing does not propagate as an error return from the
worker — `FileT::new` calls `.unwrap()`, so the build aborts by panic.
On a listing holding one symlink entry whose `canonicalize` fails with
code 7, the build ends in `panic 7`, which `isErrReturn` rejects. -/
theorem buildListing_claim_counterexample :
    buildListing true
        (.ok [.ok ⟨5, .ok .symlink, .error 7, .ok .regular, [], 0, 0, []⟩])
      = .error (.panic 7) ∧
    isErrReturn (buildListing true
        (.ok [.ok ⟨5, .ok .symlink, .error 7, .ok .regular, [], 0, 0, []⟩]))
      = false :=
  ⟨rfl, rfl⟩

/-- C3 (amended): every error met while building a directory listing is
fatal — no entry is ever silently skipped — but the abort kind depends on
the error: an error opening the directory, or an `Err` entry from the
enumeration, propagates as an error return (`?`), while file-type,
canonicalization and metadata errors inside `FileT::new` abort by panic
(`.unwrap()`), not by an error return.  On success every raw entry
contributes exactly one listing entry, names preserved in order. -/
theorem buildListing_error_fatal_amended (follow : Bool)
    (rs : List (Except Nat RawEntry)) :
    (∀ c, buildListing follow (.error c) = .error (.errReturn c)) ∧
    (∀ e a, FileT.new follow e = .error a → ∃ c, a = .panic c) ∧
    (match firstAbort follow rs with
     | some a => buildListing follow (.ok rs) = .error a
     | none => ∃ fs, buildListing follow (.ok rs) = .ok fs ∧
         fs.map FileT.name = rs.map rawName) := by
  refine ⟨fun c => rfl, ?_, collectEntries_spec follow rs⟩
  intro e a h
  unfold FileT.new at h
  split at h
  · cases h; exact ⟨_, rfl⟩
  · split at h
    · split at h
      · cases h; exact ⟨_, rfl⟩
      · split at h
        · cases h; exact ⟨_, rfl⟩
        · cases h
    · cases h

/-! ## The worker loop's steal phase (`src/main.rs` lines 228–258).

`DirWorker::run` pops its own deque while counted in `non_idle`; on empty
it does `fetch_sub(1)` and enters the steal loop.  A successful
`Stealer::steal` removes the item from the victim's deque first, and only
then does the thief `fetch_add(1)` — so between the two there is a window
in which an item is in flight: held by the thief, in no deque, and not
counted in `non_idle`.  The state machine below models one item-sized
hand per worker for that window; pushes (`push_to_stack` during
`process_path`) happen only while the worker is counted. -/

structure WSState (n : Nat) where
  working : Fin n → Bool
  deque : Fin n → Nat
  hand : Fin n → Bool

/-- The value of the `non_idle` counter: `fetch_sub` on going idle and
`fetch_add` on acknowledging a steal keep it equal to the number of
counted workers. -/
def nonIdle {n : Nat} (s : WSState n) : Nat :=
  (Finset.univ.filter fun i => s.working i = true).card

/-- One transition of the scheduler: a counted worker pops or pushes its
own deque or goes idle on empty (`fetch_sub`); an idle worker's steal
takes an item out of a victim's deque into its hand
(`Steal::Success` before `fetch_add`), and the acknowledge
(`fetch_add`) makes it counted again, the item then being processed. -/
inductive WStep {n : Nat} : WSState n → WSState n → Prop where
  | pop (s s' : WSState n) (i : Fin n)
      (hw : s.working i = true) (hd : 0 < s.deque i)
      (hw' : s'.working = s.working) (hh' : s'.hand = s.hand)
      (hdi : s'.deque i = s.deque i - 1)
      (hdo : ∀ j, j ≠ i → s'.deque j = s.deque j) : WStep s s'
  | push (s s' : WSState n) (i : Fin n)
      (hw : s.working i = true)
      (hw' : s'.working = s.working) (hh' : s'.hand = s.hand)
      (hdi : s'.deque i = s.deque i + 1)
      (hdo : ∀ j, j ≠ i → s'.deque j = s.deque j) : WStep s s'
  | goIdle (s s' : WSState n) (i : Fin n)
      (hw : s.working i = true) (hd : s.deque i = 0)
      (hwi : s'.working i = false)
      (hwo : ∀ j, j ≠ i → s'.working j = s.working j)
      (hh' : s'.hand = s.hand) (hd' : s'.deque = s.deque) : WStep s s'
  | stealTake (s s' : WSState n) (i v : Fin n) (hne : i ≠ v)
      (hw : s.working i = false) (hh : s.hand i = false) (hd : 0 < s.deque v)
      (hw' : s'.working = s.working)
      (hhi : s'.hand i = true) (hho : ∀ j, j ≠ i → s'.hand j = s.hand j)
      (hdv : s'.deque v = s.deque v - 1)
      (hdo : ∀ j, j ≠ v → s'.deque j = s.deque j) : WStep s s'
  | stealAck (s s' : WSState n) (i : Fin n)
      (hh : s.hand i = true)
      (hwi : s'.working i = true)
      (hwo : ∀ j, j ≠ i → s'.working j = s.working j)
      (hhi : s'.hand i = false) (hho : ∀ j, j ≠ i → s'.hand j = s.hand j)
      (hd' : s'.deque = s.deque) : WStep s s'

/-- Any number of scheduler transitions. -/
def Steps {n : Nat} : WSState n → WSState n → Prop :=
  Relation.ReflTransGen WStep

/-- With `non_idle = 0` no worker is counted. -/
theorem working_false_of_nonIdle_zero {n : Nat} {s : WSState n}
    (h : nonIdle s = 0) (i : Fin n) : s.working i = false := by
  unfold nonIdle at h
  rw [Finset.card_eq_zero] at h
  cases hb : s.working i
  · rfl
  · have hi : i ∈ Finset.univ.filter fun j => s.working j = true :=
      Finset.mem_filter.mpr ⟨Finset.mem_univ i, hb⟩
    rw [h] at hi
    exact absurd hi (Finset.not_mem_empty i)

/-- The two-worker states of the counterexample trace. -/
def cs0 : WSState 2 := ⟨![true, true], ![0, 0], ![false, false]⟩

def cs1 : WSState 2 := ⟨![true, true], ![0, 1], ![false, false]⟩

def cs2 : WSState 2 := ⟨![false, true], ![0, 1], ![false, false]⟩

def cs3 : WSState 2 := ⟨![false, true], ![0, 0], ![true, false]⟩

def cs4 : WSState 2 := ⟨![false, false], ![0, 0], ![true, false]⟩

def cs5 : WSState 2 := ⟨![true, false], ![0, 0], ![false, false]⟩

def cs6 : WSState 2 := ⟨![true, false], ![1, 0], ![false, false]⟩

/-- C9 counterexample: observing `non_idle == 0` in a round where every
stealer reported empty does not rule out further work.  In this
reachable two-worker execution, worker 1 pushes an item and goes idle
after worker 0 — already idle — has stolen it but not yet done
`fetch_add`: at that point `non_idle = 0` and both deques are empty
(every stealer reports empty), yet the stolen item is in flight in
worker 0's hand, and after the `fetch_add` its processing pushes new
work into a deque.  A worker returning success at the observation
abandons that work. -/
theorem steal_claim_counterexample :
    Steps cs0 cs4 ∧ nonIdle cs4 = 0 ∧ (∀ j, cs4.deque j = 0) ∧
      cs4.hand 0 = true ∧ Steps cs4 cs6 ∧ cs6.deque 0 = 1 := by
  refine ⟨?_, by decide, by decide, by decide, ?_, by decide⟩
  · exact Relation.ReflTransGen.head
      (WStep.push cs0 cs1 1 (by decide) (by decide) (by decide) (by decide)
        (by decide))
      (Relation.ReflTransGen.head
        (WStep.goIdle cs1 cs2 0 (by decide) (by decide) (by decide)
          (by decide) (by decide) (by decide))
        (Relation.ReflTransGen.head
          (WStep.stealTake cs2 cs3 0 1 (by decide) (by decide) (by decide)
            (by decide) (by decide) (by decide) (by decide) (by decide)
            (by decide))
          (Relation.ReflTransGen.head
            (WStep.goIdle cs3 cs4 1 (by decide) (by decide) (by decide)
              (by decide) (by decide) (by decide))
            Relation.ReflTransGen.refl)))
  · exact Relation.ReflTransGen.head
      (WStep.stealAck cs4 cs5 0 (by decide) (by decide) (by decide)
        (by decide) (by decide) (by decide))
      (Relation.ReflTransGen.head
        (WStep.push cs5 cs6 0 (by decide) (by decide) (by decide)
          (by decide) (by decide))
        Relation.ReflTransGen.refl)

/-- C9 (amended): the observation is sound only once no steal is in
flight.  If a worker observes `non_idle = 0`, every deque empty, and no
worker holds a stolen item awaiting its `fetch_add`, then along every
later scheduler execution all deques stay empty, no worker is ever
counted again, and no item is ever in flight — no further work can
appear, so returning success abandons nothing. -/
theorem steal_no_inflight_no_new_work {n : Nat} (s s' : WSState n)
    (hni : nonIdle s = 0) (hh : ∀ i, s.hand i = false)
    (hd : ∀ i, s.deque i = 0) (hsteps : Steps s s') :
    ∀ i, s'.deque i = 0 ∧ s'.working i = false ∧ s'.hand i = false := by
  have hw := working_false_of_nonIdle_zero hni
  induction hsteps with
  | refl => exact fun i => ⟨hd i, hw i, hh i⟩
  | tail hab hbc ih =>
    exfalso
    cases hbc with
    | pop i hwi hdi _ _ _ _ =>
      rw [(ih i).2.1] at hwi
      exact Bool.noConfusion hwi
    | push i hwi _ _ _ _ =>
      rw [(ih i).2.1] at hwi
      exact Bool.noConfusion hwi
    | goIdle i hwi _ _ _ _ _ =>
      rw [(ih i).2.1] at hwi
      exact Bool.noConfusion hwi
    | stealTake i v _ _ _ hdv _ _ _ _ _ =>
      rw [(ih v).1] at hdv
      exact absurd hdv (by omega)
    | stealAck i hhi _ _ _ _ _ =>
      rw [(ih i).2.2] at hhi
      exact Bool.noConfusion hhi

theorem steal_no_inflight_no_new_work_witness :
    (WSState.mk ![false, false] ![0, 0] ![false, false]).deque 0 = 0 ∧
    (WSState.mk ![false, false] ![0, 0] ![false, false]).working 0 = false ∧
    (WSState.mk ![false, false] ![0, 0] ![false, false]).hand 0 = false :=
  steal_no_inflight_no_new_work
    (WSState.mk ![false, false] ![0, 0] ![false, false])
    (WSState.mk ![false, false] ![0, 0] ![false, false])
    (by decide) (by decide) (by decide) Relation.ReflTransGen.refl 0

end Dirdiff
